import Mathlib

/-!
# Verification of the `galois-js` GF(2^8) field library

Shallow embedding of `src/gf256.ts`.  Bytes and 16-bit polynomial values are
modelled as `Nat`; JavaScript bitwise operations on small non-negative
integers coincide with the `Nat` operations `^^^`, `&&&`, `<<<`, `>>>`.
Methods that `throw` are modelled as `Except GFErr`.  The `Uint8Array`
tables built by the `GF256` constructor are modelled as functions obtained
by replaying exactly the constructor's writes.
-/

set_option maxRecDepth 100000

namespace Galois

/-- Error kinds of the thrown `Error`s in `gf256.ts`, one per distinct
`throw` site reachable from the operations the claims mention. -/
inductive GFErr where
  | outOfRange
  | invalidGenerator
  | divisionByZero
  | noInverseForZero
  | emptyPolynomial
  | invalidEvaluationPoint
  | emptyInput
deriving DecidableEq, Repr

/-- One iteration's update of `a` in `GF256.mulByte`:
`const hi = a & 0x80; a <<= 1; if (hi !== 0) { a ^= poly & 0xff; }`.
Note the source does not mask `a` back to a byte, so `a` may grow. -/
def mulStep (p a : Nat) : Nat :=
  if a &&& 128 ≠ 0 then (a <<< 1) ^^^ (p &&& 255) else a <<< 1

/-- The loop of `GF256.mulByte`, recursing on the remaining iteration count:
`if ((b & 1) !== 0) { res ^= a; }` then the `a` update, then `b >>= 1`. -/
def srcAux (p : Nat) : Nat → Nat → Nat → Nat → Nat
  | 0, _, _, res => res
  | n + 1, a, b, res =>
      srcAux p n (mulStep p a) (b >>> 1) (if b &&& 1 ≠ 0 then res ^^^ a else res)

/-- `GF256.mulByte(a, b, poly)`: 8 loop iterations, then `return res & 0xff`. -/
def mulByte (a b p : Nat) : Nat :=
  srcAux p 8 a b 0 &&& 255

/-- One multiplication of the running value by the generator, as done in the
constructor's table loop and in `isGenerator`: `x = GF256.mulByte(x, gen, poly)`. -/
def genStep (p g x : Nat) : Nat :=
  mulByte x g p

/-- The value of `x` after `i` iterations of the table loop starting from
`x = 1`: the `i`-th power of the generator as computed by the source. -/
def powGen (p g i : Nat) : Nat :=
  (genStep p g)^[i] 1

/-- The loop of `GF256.isGenerator`: `seen` is the set of visited values
(modelled as a duplicate-free list, since the loop returns `false` before
ever inserting a duplicate), `x` the current value, and the fuel counts the
remaining iterations.  After the loop the source checks `seen.size === 255`. -/
def isGenAux (p g : Nat) : Nat → Nat → List Nat → Bool
  | 0, _, seen => seen.length == 255
  | n + 1, x, seen =>
      if x ∈ seen then false
      else isGenAux p g n (genStep p g x) (x :: seen)

/-- `GF256.isGenerator(poly, gen)` for arguments that pass validation. -/
def isGenerator (p g : Nat) : Bool :=
  isGenAux p g 255 1 []

/-- Pointwise array write: `t[k] = v` on a table modelled as a function. -/
def upd (t : Nat → Nat) (k v : Nat) : Nat → Nat :=
  fun x => if x = k then v else t x

/-- State of the constructor's first table loop after `n` iterations:
the running value `x` and the `log` table contents.  The loop body is
`this.exp[i] = x; this.log[x] = i; x = GF256.mulByte(x, gen, poly)`. -/
def logLoop (p g : Nat) : Nat → Nat × (Nat → Nat)
  | 0 => (1, fun _ => 0)
  | n + 1 =>
      let t := logLoop p g n
      (genStep p g t.1, upd t.2 t.1 n)

/-- The `log` table of a constructed field: 255 writes `log[x_i] = i`,
starting from the all-zero `Uint8Array(256)`. -/
def logF (p g v : Nat) : Nat :=
  (logLoop p g 255).2 v

/-- The `exp` table of a constructed field.  Indices `0 ≤ i < 255` are
written by the first loop (`exp[i] = x_i`); the duplication loop
`for i in [0,255]: exp[i+255] = exp[i]` fills `255 ≤ i ≤ 510` (its read of
`exp[255]` at `i = 255` sees the value written at `i = 0`, namely `x_0`,
which the `% 255` below reproduces); index `511` is never written and keeps
the `Uint8Array`'s initial `0`. -/
def expF (p g i : Nat) : Nat :=
  if i < 255 then powGen p g i
  else if i ≤ 510 then powGen p g ((i - 255) % 255)
  else 0

/-- The `GF256` constructor succeeds exactly when `poly` passes
`validateUInt16`, `gen` passes `validateByte`, and `isGenerator` holds. -/
def ValidField (p g : Nat) : Prop :=
  p ≤ 65535 ∧ g ≤ 255 ∧ isGenerator p g = true

/-- `GF256.add(a, b)`: validate both operands, then `a ^ b`. -/
def add (a b : Nat) : Except GFErr Nat :=
  if 255 < a then .error .outOfRange
  else if 255 < b then .error .outOfRange
  else .ok (a ^^^ b)

/-- `GF256.mul(a, b)`: validate, short-circuit on zero, then
`exp[log[a] + log[b]]`. -/
def mul (p g a b : Nat) : Except GFErr Nat :=
  if 255 < a then .error .outOfRange
  else if 255 < b then .error .outOfRange
  else if a = 0 ∨ b = 0 then .ok 0
  else .ok (expF p g (logF p g a + logF p g b))

/-- `GF256.div(a, b)`: validate, throw on `b == 0`, return `0` on `a == 0`,
otherwise `exp[logDiff]` where `logDiff = log[a] - log[b]` gets `255` added
when negative (the subtraction is on JavaScript numbers, hence over `Int`). -/
def div (p g a b : Nat) : Except GFErr Nat :=
  if 255 < a then .error .outOfRange
  else if 255 < b then .error .outOfRange
  else if b = 0 then .error .divisionByZero
  else if a = 0 then .ok 0
  else
    let d : Int := (logF p g a : Int) - (logF p g b : Int)
    let d : Int := if d < 0 then d + 255 else d
    .ok (expF p g d.toNat)

/-- `GF256.inv(a)`: validate, throw on `a == 0`, otherwise
`exp[255 - log[a]]` (the table entry `log[a]` is at most `255`, so the
JavaScript subtraction never goes negative and `Nat` subtraction agrees). -/
def inv (p g a : Nat) : Except GFErr Nat :=
  if 255 < a then .error .outOfRange
  else if a = 0 then .error .noInverseForZero
  else .ok (expF p g (255 - logF p g a))

/-- `GF256.evaluate(coefficients, x)`: validate `x`, reject an empty
coefficient array, reject `x == 0`, then Horner's method from the
highest-degree coefficient down, calling the `mul` and `add` methods. -/
def evaluate (p g : Nat) (coeffs : List Nat) (x : Nat) : Except GFErr Nat :=
  if 255 < x then .error .outOfRange
  else if coeffs.length = 0 then .error .emptyPolynomial
  else if x = 0 then .error .invalidEvaluationPoint
  else
    match coeffs.reverse with
    | [] => .error .emptyPolynomial
    | top :: rest =>
        rest.foldlM (fun acc c => do
          let m ← mul p g acc x
          add m c) top

/-- `GF256.interpolate(samples, x)`: validate `x`, reject an empty sample
list, then the double Lagrange loop, calling the `add`, `div` and `mul`
methods exactly as the source does. -/
def interpolate (p g : Nat) (samples : List (Nat × Nat)) (x : Nat) :
    Except GFErr Nat :=
  if 255 < x then .error .outOfRange
  else if samples.length = 0 then .error .emptyInput
  else
    samples.enum.foldlM (fun result is => do
      let basis ← samples.enum.foldlM (fun basis js =>
        if is.1 = js.1 then pure basis
        else do
          let num ← add x js.2.1
          let den ← add is.2.1 js.2.1
          let term ← div p g num den
          mul p g basis term) 1
      let t ← mul p g is.2.2 basis
      add result t) 0

end Galois

namespace Galois

/-! ## Bit-level helpers -/

theorem and255_eq_mod (u : Nat) : u &&& 255 = u % 256 := by
  have h := Nat.and_pow_two_sub_one_eq_mod u 8
  norm_num at h
  exact h

theorem and255_lt (u : Nat) : u &&& 255 < 256 := by
  rw [and255_eq_mod]
  exact Nat.mod_lt _ (by norm_num)

theorem and255_of_lt {u : Nat} (h : u < 256) : u &&& 255 = u := by
  rw [and255_eq_mod]
  exact Nat.mod_eq_of_lt h

theorem mask_xor (u v : Nat) : (u ^^^ v) &&& 255 = (u &&& 255) ^^^ (v &&& 255) :=
  Nat.and_xor_distrib_right

theorem xor_lt_256 {u v : Nat} (hu : u < 256) (hv : v < 256) : u ^^^ v < 256 := by
  have h : (256 : Nat) = 2 ^ 8 := by norm_num
  rw [h] at hu hv ⊢
  exact Nat.xor_lt_two_pow hu hv

theorem xor_shiftLeft (u v n : Nat) : (u ^^^ v) <<< n = (u <<< n) ^^^ (v <<< n) := by
  apply Nat.eq_of_testBit_eq
  intro i
  simp [Nat.testBit_shiftLeft, Nat.testBit_xor, Bool.and_xor_distrib_left]

theorem xor_shiftRight (u v n : Nat) : (u ^^^ v) >>> n = (u >>> n) ^^^ (v >>> n) := by
  apply Nat.eq_of_testBit_eq
  intro i
  simp [Nat.testBit_shiftRight, Nat.testBit_xor]

theorem xor_mix (a b c d : Nat) : (a ^^^ b) ^^^ (c ^^^ d) = (a ^^^ c) ^^^ (b ^^^ d) := by
  rw [Nat.xor_assoc, Nat.xor_assoc]
  congr 1
  rw [← Nat.xor_assoc, ← Nat.xor_assoc]
  congr 1
  exact Nat.xor_comm _ _

theorem xor_cancel_right (u z : Nat) : (u ^^^ z) ^^^ z = u := by
  rw [Nat.xor_assoc, Nat.xor_self, Nat.xor_zero]

theorem and128_eq (u : Nat) : u &&& 128 = if u.testBit 7 then 128 else 0 := by
  have h128 : (128 : Nat) = 2 ^ 7 := by norm_num
  have ht : ∀ i, Nat.testBit 128 i = decide (7 = i) := by
    intro i
    rw [h128]
    exact Nat.testBit_two_pow
  apply Nat.eq_of_testBit_eq
  intro i
  rw [Nat.testBit_and]
  by_cases h : u.testBit 7
  · simp only [h, if_true, ht]
    by_cases hi : i = 7
    · subst hi
      simp [h]
    · simp [Ne.symm hi]
  · simp only [h, if_false, Nat.zero_testBit, ht]
    by_cases hi : i = 7
    · subst hi
      simp [h]
    · simp [Ne.symm hi]

theorem and128_ne_iff (u : Nat) : (u &&& 128 ≠ 0) ↔ u.testBit 7 = true := by
  rw [and128_eq]
  by_cases h : u.testBit 7 <;> simp [h]

theorem and1_ne_iff (u : Nat) : (u &&& 1 ≠ 0) ↔ u.testBit 0 = true := by
  rw [Nat.and_one_is_mod, Nat.testBit_zero]
  have h := Nat.mod_two_eq_zero_or_one u
  rcases h with h | h <;> simp [h]

theorem one_xor_two_mul (k : Nat) : 1 ^^^ 2 * k = 2 * k + 1 := by
  apply Nat.eq_of_testBit_eq
  intro i
  cases i with
  | zero =>
      rw [Nat.testBit_xor]
      have h1 : (2 * k) % 2 = 0 := by omega
      have h2 : (2 * k + 1) % 2 = 1 := by omega
      simp [Nat.testBit_zero, h1, h2]
  | succ i =>
      rw [Nat.testBit_xor, Nat.testBit_succ, Nat.testBit_succ, Nat.testBit_succ]
      have e0 : (1 : Nat) / 2 = 0 := by norm_num
      have e1 : 2 * k / 2 = k := by omega
      have e2 : (2 * k + 1) / 2 = k := by omega
      rw [e0, e1, e2]
      simp

end Galois

namespace Galois

/-! ## The clean, byte-valued form of the `mulByte` loop -/

theorem mulStep_eq (p a : Nat) :
    mulStep p a = (a <<< 1) ^^^ (if a &&& 128 ≠ 0 then p &&& 255 else 0) := by
  unfold mulStep
  by_cases h : a &&& 128 ≠ 0 <;> simp [h]

/-- The low byte of `mulStep`.  The source never masks the loop variable `a`
back to a byte, so it accumulates garbage bits at positions `≥ 8`; `T` is the
byte-valued step those garbage bits cannot influence. -/
def T (p a : Nat) : Nat := mulStep p a &&& 255

theorem T_lt (p a : Nat) : T p a < 256 := and255_lt _

theorem T_zero (p : Nat) : T p 0 = 0 := by
  simp [T, mulStep]

theorem T_linear (p u v : Nat) : T p (u ^^^ v) = T p u ^^^ T p v := by
  have hI : (if (u ^^^ v) &&& 128 ≠ 0 then p &&& 255 else 0) =
      (if u &&& 128 ≠ 0 then p &&& 255 else 0) ^^^
      (if v &&& 128 ≠ 0 then p &&& 255 else 0) := by
    have hb : ((u ^^^ v) &&& 128 ≠ 0) ↔ ((u.testBit 7 ^^ v.testBit 7) = true) := by
      rw [and128_ne_iff, Nat.testBit_xor]
    by_cases hu : u.testBit 7 = true <;> by_cases hv : v.testBit 7 = true
    · rw [if_neg (fun hc => by simp [hu, hv] at hb; exact hc hb),
        if_pos ((and128_ne_iff u).mpr hu), if_pos ((and128_ne_iff v).mpr hv),
        Nat.xor_self]
    · have hv' : v.testBit 7 = false := by simpa using hv
      rw [if_pos (hb.mpr (by simp [hu, hv'])),
        if_pos ((and128_ne_iff u).mpr hu),
        if_neg (fun hc => hv ((and128_ne_iff v).mp hc)), Nat.xor_zero]
    · have hu' : u.testBit 7 = false := by simpa using hu
      rw [if_pos (hb.mpr (by simp [hu', hv])),
        if_neg (fun hc => hu ((and128_ne_iff u).mp hc)),
        if_pos ((and128_ne_iff v).mpr hv), Nat.zero_xor]
    · have hu' : u.testBit 7 = false := by simpa using hu
      have hv' : v.testBit 7 = false := by simpa using hv
      rw [if_neg (fun hc => by simp [hu', hv'] at hb; exact hc hb),
        if_neg (fun hc => hu ((and128_ne_iff u).mp hc)),
        if_neg (fun hc => hv ((and128_ne_iff v).mp hc)), Nat.xor_zero]
  unfold T
  rw [mulStep_eq, mulStep_eq, mulStep_eq, ← mask_xor, xor_shiftLeft, hI, xor_mix]

theorem mulStep_low (p a : Nat) : mulStep p a &&& 255 = T p (a &&& 255) := by
  unfold T
  rw [mulStep_eq, mulStep_eq, mask_xor, mask_xor]
  have h1 : ((a &&& 255) <<< 1) &&& 255 = (a <<< 1) &&& 255 := by
    rw [Nat.shiftLeft_eq, Nat.shiftLeft_eq, and255_eq_mod, and255_eq_mod,
      and255_eq_mod, Nat.pow_one]
    omega
  have h2 : (a &&& 255) &&& 128 = a &&& 128 := by
    rw [Nat.and_assoc]
    congr 1
  rw [h1, h2]

end Galois

namespace Galois

/-- The byte-valued version of the `mulByte` loop: same accumulator
recursion as `srcAux`, but with the step masked to a byte at every
iteration and the partial products collected directly. -/
def McAux (p : Nat) : Nat → Nat → Nat → Nat
  | 0, _, _ => 0
  | n + 1, a, b => (if b &&& 1 ≠ 0 then a else 0) ^^^ McAux p n (T p a) (b >>> 1)

theorem srcAux_low (p : Nat) :
    ∀ n a b res, srcAux p n a b res &&& 255 = (res &&& 255) ^^^ McAux p n (a &&& 255) b := by
  intro n
  induction n with
  | zero =>
      intro a b res
      simp [srcAux, McAux]
  | succ n ih =>
      intro a b res
      rw [srcAux, McAux, ih, mulStep_low]
      by_cases hb : b &&& 1 ≠ 0
      · rw [if_pos hb, if_pos hb, mask_xor, Nat.xor_assoc]
      · rw [if_neg hb, if_neg hb, Nat.zero_xor]

theorem mulByte_lt (a b p : Nat) : mulByte a b p < 256 := and255_lt _

theorem mulByte_eq_McAux {a : Nat} (ha : a < 256) (b p : Nat) :
    mulByte a b p = McAux p 8 a b := by
  rw [mulByte, srcAux_low, and255_of_lt ha]
  simp

theorem McAux_lt (p : Nat) : ∀ n b {a}, a < 256 → McAux p n a b < 256 := by
  intro n
  induction n with
  | zero =>
      intro b a ha
      simp [McAux]
  | succ n ih =>
      intro b a ha
      rw [McAux]
      apply xor_lt_256 _ (ih _ (T_lt p a))
      by_cases hb : b &&& 1 ≠ 0
      · rw [if_pos hb]; exact ha
      · rw [if_neg hb]; norm_num

theorem McAux_zero_left (p : Nat) : ∀ n b, McAux p n 0 b = 0 := by
  intro n
  induction n with
  | zero => intro b; rfl
  | succ n ih =>
      intro b
      rw [McAux, T_zero, ih]
      by_cases hb : b &&& 1 ≠ 0
      · rw [if_pos hb, Nat.xor_zero]
      · rw [if_neg hb, Nat.xor_zero]

theorem McAux_zero_right (p : Nat) : ∀ n a, McAux p n a 0 = 0 := by
  intro n
  induction n with
  | zero => intro a; rfl
  | succ n ih =>
      intro a
      rw [McAux]
      norm_num
      exact ih _

theorem McAux_linear_left (p : Nat) :
    ∀ n a₁ a₂ b, McAux p n (a₁ ^^^ a₂) b = McAux p n a₁ b ^^^ McAux p n a₂ b := by
  intro n
  induction n with
  | zero => intro a₁ a₂ b; simp [McAux]
  | succ n ih =>
      intro a₁ a₂ b
      rw [McAux, McAux, McAux, T_linear, ih, xor_mix]
      congr 1
      by_cases hb : b &&& 1 ≠ 0
      · rw [if_pos hb, if_pos hb, if_pos hb]
      · rw [if_neg hb, if_neg hb, if_neg hb, Nat.xor_zero]

theorem and1_cases (u : Nat) : u &&& 1 = 0 ∨ u &&& 1 = 1 := by
  rw [Nat.and_one_is_mod]
  exact Nat.mod_two_eq_zero_or_one u

theorem McAux_linear_right (p : Nat) :
    ∀ n a b₁ b₂, McAux p n a (b₁ ^^^ b₂) = McAux p n a b₁ ^^^ McAux p n a b₂ := by
  intro n
  induction n with
  | zero => intro a b₁ b₂; simp [McAux]
  | succ n ih =>
      intro a b₁ b₂
      rw [McAux, McAux, McAux, xor_shiftRight, ih, xor_mix]
      congr 1
      have hx : (b₁ ^^^ b₂) &&& 1 = (b₁ &&& 1) ^^^ (b₂ &&& 1) :=
        Nat.and_xor_distrib_right
      rcases and1_cases b₁ with h1 | h1 <;> rcases and1_cases b₂ with h2 | h2 <;>
        rw [h1, h2] at hx <;> norm_num at hx <;>
        simp [h1, h2, hx]

end Galois

namespace Galois

/-! ## Xor-folds and the expansion of the multiplier into shifted partials -/

/-- `xfold h n = h 0 ^^^ h 1 ^^^ ... ^^^ h (n-1)`. -/
def xfold (h : Nat → Nat) : Nat → Nat
  | 0 => 0
  | n + 1 => xfold h n ^^^ h n

theorem xfold_congr (h₁ h₂ : Nat → Nat) (n : Nat) (he : ∀ i, i < n → h₁ i = h₂ i) :
    xfold h₁ n = xfold h₂ n := by
  induction n with
  | zero => rfl
  | succ n ih =>
      rw [xfold, xfold, ih (fun i hi => he i (by omega)), he n (by omega)]

theorem xfold_zero_fun (n : Nat) : xfold (fun _ => 0) n = 0 := by
  induction n with
  | zero => rfl
  | succ n ih => rw [xfold, ih, Nat.xor_zero]

theorem xfold_xor (h₁ h₂ : Nat → Nat) (n : Nat) :
    xfold (fun i => h₁ i ^^^ h₂ i) n = xfold h₁ n ^^^ xfold h₂ n := by
  induction n with
  | zero => simp [xfold]
  | succ n ih => rw [xfold, xfold, xfold, ih, xor_mix]

theorem xfold_shift (h : Nat → Nat) (n : Nat) :
    xfold h (n + 1) = h 0 ^^^ xfold (fun i => h (i + 1)) n := by
  induction n with
  | zero => rw [xfold, xfold, xfold, Nat.zero_xor, Nat.xor_zero]
  | succ n ih =>
      rw [xfold, ih, Nat.xor_assoc]
      rfl

theorem xfold_lt (h : Nat → Nat) (n : Nat) (hb : ∀ i, i < n → h i < 256) :
    xfold h n < 256 := by
  induction n with
  | zero => norm_num [xfold]
  | succ n ih =>
      rw [xfold]
      exact xor_lt_256 (ih (fun i hi => hb i (by omega))) (hb n (by omega))

theorem xfold_swap (h : Nat → Nat → Nat) (m : Nat) :
    ∀ n, xfold (fun j => xfold (fun i => h i j) m) n =
      xfold (fun i => xfold (fun j => h i j) n) m := by
  intro n
  induction n with
  | zero =>
      have hz : (fun i => xfold (fun j => h i j) 0) = fun _ : Nat => (0 : Nat) :=
        funext fun i => rfl
      rw [hz, xfold_zero_fun]
      rfl
  | succ n ih =>
      rw [xfold, ih, ← xfold_xor]
      rfl

/-- Mapping an xor-linear function over an xor-fold. -/
theorem linear_xfold (L : Nat → Nat) (hL0 : L 0 = 0)
    (hL : ∀ u v, L (u ^^^ v) = L u ^^^ L v) (h : Nat → Nat) (n : Nat) :
    L (xfold h n) = xfold (fun i => L (h i)) n := by
  induction n with
  | zero => exact hL0
  | succ n ih => rw [xfold, hL, ih]; rfl

theorem two_mul_xor (u v : Nat) : 2 * u ^^^ 2 * v = 2 * (u ^^^ v) := by
  have h := xor_shiftLeft u v 1
  rw [Nat.shiftLeft_eq, Nat.shiftLeft_eq, Nat.shiftLeft_eq, Nat.pow_one] at h
  rw [Nat.mul_comm 2 u, Nat.mul_comm 2 v, Nat.mul_comm 2 (u ^^^ v), ← h]

theorem xfold_two_mul (h : Nat → Nat) (n : Nat) :
    xfold (fun i => 2 * h i) n = 2 * xfold h n := by
  induction n with
  | zero => rfl
  | succ n ih => rw [xfold, xfold, ih, two_mul_xor]

/-- Binary expansion of a `Nat` below `2 ^ n` as an xor of powers of two. -/
theorem xfold_bits : ∀ n : Nat, ∀ {a : Nat}, a < 2 ^ n →
    xfold (fun i => if a.testBit i then 2 ^ i else 0) n = a := by
  intro n
  induction n with
  | zero =>
      intro a ha
      have : a = 0 := by omega
      subst this
      rfl
  | succ n ih =>
      intro a ha
      rw [xfold_shift]
      have h1 : ∀ i, i < n → (if a.testBit (i + 1) then 2 ^ (i + 1) else 0) =
          2 * (if (a / 2).testBit i then 2 ^ i else 0) := by
        intro i _
        rw [← Nat.testBit_succ]
        by_cases h : a.testBit (i + 1) <;> simp [h, Nat.pow_succ, Nat.mul_comm]
      rw [xfold_congr _ _ n h1, xfold_two_mul, ih (a := a / 2) (by omega),
        Nat.testBit_zero]
      rcases Nat.mod_two_eq_zero_or_one a with h | h
      · simp only [h]
        norm_num
        omega
      · simp only [h]
        norm_num [one_xor_two_mul]
        omega

end Galois

namespace Galois

theorem T_iterate_zero (p j : Nat) : (T p)^[j] 0 = 0 := by
  induction j with
  | zero => rfl
  | succ j ih => rw [Function.iterate_succ_apply', ih, T_zero]

theorem T_iterate_linear (p j u v : Nat) :
    (T p)^[j] (u ^^^ v) = (T p)^[j] u ^^^ (T p)^[j] v := by
  induction j with
  | zero => rfl
  | succ j ih =>
      rw [Function.iterate_succ_apply', Function.iterate_succ_apply',
        Function.iterate_succ_apply', ih, T_linear]

theorem T_iterate_lt (p j : Nat) {a : Nat} (ha : a < 256) : (T p)^[j] a < 256 := by
  cases j with
  | zero => exact ha
  | succ j => rw [Function.iterate_succ_apply']; exact T_lt _ _

/-- Expansion of the clean loop into shifted partial products selected by
the multiplier's bits. -/
theorem McAux_eq_xfold (p : Nat) :
    ∀ n a b, McAux p n a b =
      xfold (fun j => if b.testBit j then (T p)^[j] a else 0) n := by
  intro n
  induction n with
  | zero => intro a b; rfl
  | succ n ih =>
      intro a b
      rw [McAux, ih, xfold_shift]
      have hhead : (if b &&& 1 ≠ 0 then a else 0) =
          (if b.testBit 0 then (T p)^[0] a else 0) := by
        by_cases h : b.testBit 0 = true
        · rw [if_pos ((and1_ne_iff b).mpr h), if_pos h, Function.iterate_zero_apply]
        · rw [if_neg (fun hc => h ((and1_ne_iff b).mp hc)), if_neg h]
      have htail : ∀ i, i < n →
          (if (b >>> 1).testBit i then (T p)^[i] (T p a) else 0) =
          (if b.testBit (i + 1) then (T p)^[i + 1] a else 0) := by
        intro i _
        rw [Nat.testBit_shiftRight, Nat.add_comm 1 i, ← Function.iterate_succ_apply]
      rw [hhead, xfold_congr _ _ n htail]

theorem T_two_pow (p : Nat) {i : Nat} (hi : i < 7) : T p (2 ^ i) = 2 ^ (i + 1) := by
  unfold T mulStep
  have hbit : (2 ^ i) &&& 128 = 0 := by
    rw [and128_eq, Nat.testBit_two_pow]
    simp [Nat.ne_of_lt hi]
  rw [if_neg (by rw [hbit]; exact fun h => h rfl), Nat.shiftLeft_eq, Nat.pow_one,
    ← Nat.pow_succ]
  apply and255_of_lt
  have : i + 1 ≤ 7 := hi
  calc 2 ^ (i + 1) ≤ 2 ^ 7 := Nat.pow_le_pow_right (by norm_num) this
    _ < 256 := by norm_num

theorem T_iter_one (p : Nat) : ∀ {i : Nat}, i ≤ 7 → (T p)^[i] 1 = 2 ^ i := by
  intro i
  induction i with
  | zero => intro; rfl
  | succ i ih =>
      intro hi
      rw [Function.iterate_succ_apply', ih (by omega), T_two_pow p (by omega)]

/-- A byte expanded through the `T`-iterates of `1`. -/
theorem T_iterate_byte (p j : Nat) {a : Nat} (ha : a < 256) :
    (T p)^[j] a = xfold (fun i => if a.testBit i then (T p)^[i + j] 1 else 0) 8 := by
  have ha' : a < 2 ^ 8 := by norm_num; omega
  conv_lhs => rw [← xfold_bits 8 ha']
  rw [linear_xfold ((T p)^[j]) (T_iterate_zero p j) (T_iterate_linear p j)]
  apply xfold_congr
  intro i hi
  by_cases h : a.testBit i = true
  · rw [if_pos h, if_pos h, ← T_iter_one p (show i ≤ 7 by omega),
      ← Function.iterate_add_apply, Nat.add_comm j i]
  · rw [if_neg h, if_neg h, T_iterate_zero]

/-- The double expansion of the clean multiplier: partial products
`T^[i+j] 1` selected by bit `i` of `a` and bit `j` of `b`. -/
theorem McAux_dbl (p : Nat) {a : Nat} (ha : a < 256) (b : Nat) :
    McAux p 8 a b =
      xfold (fun j => xfold (fun i =>
        if b.testBit j && a.testBit i then (T p)^[i + j] 1 else 0) 8) 8 := by
  rw [McAux_eq_xfold]
  apply xfold_congr
  intro j _
  by_cases h : b.testBit j = true
  · rw [if_pos h, T_iterate_byte p j ha]
    apply xfold_congr
    intro i _
    simp [h]
  · rw [if_neg h]
    simp only [h]
    rw [show (fun i => if (false && a.testBit i) = true then (T p)^[i + j] 1 else 0)
        = fun _ : Nat => (0 : Nat) from funext (fun i => by simp), xfold_zero_fun]

/-- Commutativity of the clean multiplier on bytes. -/
theorem McAux_comm (p : Nat) {a b : Nat} (ha : a < 256) (hb : b < 256) :
    McAux p 8 a b = McAux p 8 b a := by
  rw [McAux_dbl p ha b, McAux_dbl p hb a]
  refine (xfold_swap _ _ _).trans ?_
  apply xfold_congr
  intro i _
  apply xfold_congr
  intro j _
  rw [Bool.and_comm, Nat.add_comm]

end Galois

namespace Galois

theorem mulByte_comm {a b : Nat} (ha : a < 256) (hb : b < 256) (p : Nat) :
    mulByte a b p = mulByte b a p := by
  rw [mulByte_eq_McAux ha, mulByte_eq_McAux hb, McAux_comm p ha hb]

theorem McAux_one_right (p a : Nat) : McAux p 8 a 1 = a := by
  have h1 : (1 : Nat) &&& 1 ≠ 0 := by decide
  have h2 : (1 : Nat) >>> 1 = 0 := by decide
  rw [McAux, if_pos h1, h2, McAux_zero_right, Nat.xor_zero]

theorem mulByte_one_right {a : Nat} (ha : a < 256) (p : Nat) : mulByte a 1 p = a := by
  rw [mulByte_eq_McAux ha, McAux_one_right]

theorem srcAux_zero_b (p : Nat) : ∀ n a res, srcAux p n a 0 res = res := by
  intro n
  induction n with
  | zero => intro a res; rfl
  | succ n ih =>
      intro a res
      rw [srcAux]
      norm_num
      exact ih _ _

theorem mulByte_zero_right (a p : Nat) : mulByte a 0 p = 0 := by
  rw [mulByte, srcAux_zero_b]
  rfl

theorem mulByte_zero_left (b p : Nat) : mulByte 0 b p = 0 := by
  rw [mulByte_eq_McAux (by norm_num) b p, McAux_zero_left]

theorem McAux_T_right (p : Nat) {a b : Nat} (ha : a < 256) (hb : b < 256) :
    McAux p 8 a (T p b) = T p (McAux p 8 a b) := by
  rw [McAux_comm p ha (T_lt p b), McAux_eq_xfold]
  have hc : ∀ j, j < 8 → (if a.testBit j then (T p)^[j] (T p b) else 0)
      = T p (if a.testBit j then (T p)^[j] b else 0) := by
    intro j _
    by_cases h : a.testBit j = true
    · rw [if_pos h, if_pos h, ← Function.iterate_succ_apply,
        Function.iterate_succ_apply']
    · rw [if_neg h, if_neg h, T_zero]
  rw [xfold_congr _ _ 8 hc, ← linear_xfold (T p) (T_zero p) (T_linear p),
    ← McAux_eq_xfold, McAux_comm p hb ha]

theorem McAux_iter_T (p : Nat) {a b : Nat} (ha : a < 256) (hb : b < 256) (i : Nat) :
    McAux p 8 a ((T p)^[i] b) = (T p)^[i] (McAux p 8 a b) := by
  induction i with
  | zero => rfl
  | succ i ih =>
      rw [Function.iterate_succ_apply', Function.iterate_succ_apply',
        McAux_T_right p ha (T_iterate_lt p i hb), ih]

theorem powGen_lt (p g j : Nat) : powGen p g j < 256 := by
  cases j with
  | zero => norm_num [powGen]
  | succ j =>
      rw [powGen, Function.iterate_succ_apply']
      exact mulByte_lt _ _ _

/-- Multiplying by `b · gen` is multiplying by `b` and then one generator
step: the associativity seed for the power computation. -/
theorem mulByte_genStep (p g : Nat) {a b : Nat} (ha : a < 256) (hb : b < 256) :
    mulByte a (genStep p g b) p = genStep p g (mulByte a b p) := by
  show mulByte a (mulByte b g p) p = mulByte (mulByte a b p) g p
  rw [mulByte_eq_McAux hb g p, mulByte_eq_McAux ha b p,
    mulByte_eq_McAux ha (McAux p 8 b g) p,
    mulByte_eq_McAux (McAux_lt p 8 b ha) g p, McAux_eq_xfold p 8 b g]
  calc McAux p 8 a (xfold (fun j => if g.testBit j then (T p)^[j] b else 0) 8)
      = xfold (fun j => McAux p 8 a (if g.testBit j then (T p)^[j] b else 0)) 8 :=
        linear_xfold _ (McAux_zero_right p 8 a) (McAux_linear_right p 8 a) _ 8
    _ = xfold (fun j => if g.testBit j then (T p)^[j] (McAux p 8 a b) else 0) 8 := by
        apply xfold_congr
        intro j _
        by_cases h : g.testBit j = true
        · rw [if_pos h, if_pos h, McAux_iter_T p ha hb]
        · rw [if_neg h, if_neg h, McAux_zero_right]
    _ = McAux p 8 (McAux p 8 a b) g := (McAux_eq_xfold p 8 (McAux p 8 a b) g).symm

theorem mulByte_powGen (p g : Nat) {a : Nat} (ha : a < 256) :
    ∀ j, mulByte a (powGen p g j) p = (genStep p g)^[j] a := by
  intro j
  induction j with
  | zero =>
      simp only [powGen, Function.iterate_zero_apply]
      exact mulByte_one_right ha p
  | succ j ih =>
      simp only [powGen] at ih ⊢
      rw [Function.iterate_succ_apply' (genStep p g) j 1,
        mulByte_genStep p g ha (by simpa [powGen] using powGen_lt p g j), ih]
      exact (Function.iterate_succ_apply' (genStep p g) j a).symm

/-- The source's byte multiplication turns power indices into sums. -/
theorem mulByte_powGen_powGen (p g : Nat) (i j : Nat) :
    mulByte (powGen p g i) (powGen p g j) p = powGen p g (i + j) := by
  rw [mulByte_powGen p g (powGen_lt p g i) j]
  simp only [powGen]
  rw [← Function.iterate_add_apply, Nat.add_comm j i]

end Galois

namespace Galois

/-! ## Characterisation of the `isGenerator` loop -/

theorem isGenAux_iff (p g : Nat) : ∀ n x seen,
    isGenAux p g n x seen = true ↔
      ((∀ i j, i < j → j < n → (genStep p g)^[i] x ≠ (genStep p g)^[j] x) ∧
       (∀ i, i < n → (genStep p g)^[i] x ∉ seen) ∧
       seen.length + n = 255) := by
  intro n
  induction n with
  | zero =>
      intro x seen
      simp only [isGenAux, beq_iff_eq]
      constructor
      · intro h
        exact ⟨fun i j _ hj => absurd hj (Nat.not_lt_zero j),
          fun i hi => absurd hi (Nat.not_lt_zero i), by omega⟩
      · rintro ⟨-, -, h⟩
        omega
  | succ n ih =>
      intro x seen
      by_cases hx : x ∈ seen
      · rw [isGenAux, if_pos hx]
        constructor
        · intro h
          exact absurd h (by simp)
        · rintro ⟨-, hB, -⟩
          exact absurd hx (hB 0 (Nat.succ_pos n))
      · rw [isGenAux, if_neg hx, ih (genStep p g x) (x :: seen)]
        constructor
        · rintro ⟨hd, hm, hl⟩
          refine ⟨?_, ?_, ?_⟩
          · intro i j hij hj
            cases i with
            | zero =>
                cases j with
                | zero => exact absurd hij (Nat.lt_irrefl 0)
                | succ j' =>
                    intro he
                    have h1 := hm j' (by omega)
                    rw [← Function.iterate_succ_apply] at h1
                    exact h1 (by rw [← he]; exact List.mem_cons_self _ _)
            | succ i' =>
                cases j with
                | zero => exact absurd hij (by omega)
                | succ j' =>
                    intro he
                    rw [Function.iterate_succ_apply, Function.iterate_succ_apply] at he
                    exact hd i' j' (by omega) (by omega) he
          · intro i hi
            cases i with
            | zero => exact fun hc => hx hc
            | succ i' =>
                have h1 := hm i' (by omega)
                rw [← Function.iterate_succ_apply] at h1
                exact fun hc => h1 (List.mem_cons_of_mem _ hc)
          · simp only [List.length_cons] at hl
            omega
        · rintro ⟨hd, hm, hl⟩
          refine ⟨?_, ?_, ?_⟩
          · intro i j hij hj
            rw [← Function.iterate_succ_apply, ← Function.iterate_succ_apply]
            exact hd (i + 1) (j + 1) (by omega) (by omega)
          · intro i hi
            rw [← Function.iterate_succ_apply]
            intro hc
            rcases List.mem_cons.mp hc with hc1 | hc2
            · exact hd 0 (i + 1) (by omega) (by omega) hc1.symm
            · exact hm (i + 1) (by omega) hc2
          · simp only [List.length_cons]
            omega

/-- `isGenerator` returns `true` exactly when the 255 successive powers of
the candidate, starting at `1`, are pairwise distinct. -/
theorem isGenerator_iff_distinct (p g : Nat) :
    isGenerator p g = true ↔
      ∀ i j, i < j → j < 255 → powGen p g i ≠ powGen p g j := by
  rw [isGenerator, isGenAux_iff]
  simp only [powGen]
  constructor
  · rintro ⟨hd, -, -⟩
    exact hd
  · intro hd
    exact ⟨hd, fun i _ => List.not_mem_nil _, rfl⟩

end Galois

namespace Galois

/-! ## The generator cycle never reaches 0, and covers all nonzero bytes -/

theorem genStep_linear (p g : Nat) {u v : Nat} (hu : u < 256) (hv : v < 256) :
    genStep p g (u ^^^ v) = genStep p g u ^^^ genStep p g v := by
  show mulByte (u ^^^ v) g p = mulByte u g p ^^^ mulByte v g p
  rw [mulByte_eq_McAux (xor_lt_256 hu hv), mulByte_eq_McAux hu,
    mulByte_eq_McAux hv, McAux_linear_left]

/-- If the generator step has a nonzero kernel element, its image over all
bytes has at most 128 values (every value is hit at least twice). -/
theorem image_small (p g : Nat) {z : Nat} (hz : z < 256) (hz0 : z ≠ 0)
    (hker : genStep p g z = 0) :
    ((Finset.range 256).image (genStep p g)).card ≤ 128 := by
  set A : Finset Nat := (Finset.range 256).filter (fun u => u < u ^^^ z) with hA
  have hsub : (Finset.range 256).image (genStep p g) ⊆ A.image (genStep p g) := by
    intro w hw
    rcases Finset.mem_image.mp hw with ⟨u, hu, rfl⟩
    have hu' : u < 256 := Finset.mem_range.mp hu
    have hne : u ≠ u ^^^ z := by
      intro he
      have h2 : u ^^^ u = u ^^^ (u ^^^ z) := congrArg (fun t => u ^^^ t) he
      rw [Nat.xor_self, ← Nat.xor_assoc, Nat.xor_self, Nat.zero_xor] at h2
      exact hz0 h2.symm
    rcases Nat.lt_or_ge u (u ^^^ z) with hlt | hge
    · exact Finset.mem_image.mpr ⟨u, Finset.mem_filter.mpr ⟨hu, hlt⟩, rfl⟩
    · have hxz : u ^^^ z < 256 := xor_lt_256 hu' hz
      have hmem : u ^^^ z ∈ A := by
        refine Finset.mem_filter.mpr ⟨Finset.mem_range.mpr hxz, ?_⟩
        rw [xor_cancel_right]
        omega
      refine Finset.mem_image.mpr ⟨u ^^^ z, hmem, ?_⟩
      rw [genStep_linear p g hu' hz, hker, Nat.xor_zero]
  have hle1 : ((Finset.range 256).image (genStep p g)).card ≤ A.card :=
    le_trans (Finset.card_le_card hsub) Finset.card_image_le
  have hcard : A.card ≤ 128 := by
    set B : Finset Nat := A.image (fun u => u ^^^ z) with hB
    have hBcard : B.card = A.card := by
      rw [hB]
      apply Finset.card_image_of_injOn
      intro u _ v _ h
      have h2 := congrArg (fun t => t ^^^ z) h
      simp only at h2
      rwa [xor_cancel_right, xor_cancel_right] at h2
    have hdisj : Disjoint A B := by
      rw [Finset.disjoint_left]
      intro u huA huB
      rcases Finset.mem_image.mp huB with ⟨w, hwA, hwe⟩
      have h1 := (Finset.mem_filter.mp huA).2
      have h2 := (Finset.mem_filter.mp hwA).2
      rw [← hwe, xor_cancel_right] at h1
      omega
    have hunion : A ∪ B ⊆ Finset.range 256 := by
      apply Finset.union_subset
      · exact Finset.filter_subset _ _
      · intro u huB
        rcases Finset.mem_image.mp huB with ⟨w, hwA, rfl⟩
        have hw : w < 256 := Finset.mem_range.mp (Finset.mem_filter.mp hwA).1
        exact Finset.mem_range.mpr (xor_lt_256 hw hz)
    have hc := Finset.card_le_card hunion
    rw [Finset.card_union_of_disjoint hdisj, hBcard, Finset.card_range] at hc
    omega
  omega

theorem genStep_ne_zero (p g : Nat)
    (hdist : ∀ i j, i < j → j < 255 → powGen p g i ≠ powGen p g j)
    {z : Nat} (hz : z < 256) (hz0 : z ≠ 0) : genStep p g z ≠ 0 := by
  intro hker
  have hsmall := image_small p g hz hz0 hker
  set D : Finset Nat := (Finset.range 254).image (fun i => powGen p g (i + 1)) with hD
  have hDcard : D.card = 254 := by
    rw [hD]
    rw [Finset.card_image_of_injOn, Finset.card_range]
    intro i hi j hj hij
    have hi' := Finset.mem_range.mp hi
    have hj' := Finset.mem_range.mp hj
    by_contra hne
    rcases Nat.lt_or_ge i j with h | h
    · exact hdist (i + 1) (j + 1) (by omega) (by omega) hij
    · exact hdist (j + 1) (i + 1) (by omega) (by omega) hij.symm
  have hDsub : D ⊆ (Finset.range 256).image (genStep p g) := by
    intro w hw
    rcases Finset.mem_image.mp hw with ⟨i, _, rfl⟩
    refine Finset.mem_image.mpr
      ⟨powGen p g i, Finset.mem_range.mpr (powGen_lt p g i), ?_⟩
    simp only [powGen]
    exact (Function.iterate_succ_apply' (genStep p g) i 1).symm
  have hc := Finset.card_le_card hDsub
  rw [hDcard] at hc
  omega

theorem powGen_ne_zero (p g : Nat)
    (hdist : ∀ i j, i < j → j < 255 → powGen p g i ≠ powGen p g j) :
    ∀ i, powGen p g i ≠ 0 := by
  intro i
  induction i with
  | zero => norm_num [powGen]
  | succ i ih =>
      simp only [powGen, Function.iterate_succ_apply']
      exact genStep_ne_zero p g hdist (powGen_lt p g i) ih

theorem genStep_inj (p g : Nat)
    (hdist : ∀ i j, i < j → j < 255 → powGen p g i ≠ powGen p g j)
    {u v : Nat} (hu : u < 256) (hv : v < 256)
    (he : genStep p g u = genStep p g v) : u = v := by
  by_contra hne
  have hz0 : u ^^^ v ≠ 0 := fun h => hne (Nat.xor_eq_zero.mp h)
  have hker : genStep p g (u ^^^ v) = 0 := by
    rw [genStep_linear p g hu hv, he, Nat.xor_self]
  exact genStep_ne_zero p g hdist (xor_lt_256 hu hv) hz0 hker

theorem powGen_surj (p g : Nat)
    (hdist : ∀ i j, i < j → j < 255 → powGen p g i ≠ powGen p g j)
    {v : Nat} (hv : v < 256) (hv0 : v ≠ 0) :
    ∃ i, i < 255 ∧ powGen p g i = v := by
  set X : Finset Nat := (Finset.range 255).image (powGen p g) with hX
  have hXcard : X.card = 255 := by
    rw [hX, Finset.card_image_of_injOn, Finset.card_range]
    intro i hi j hj hij
    have hi' := Finset.mem_range.mp hi
    have hj' := Finset.mem_range.mp hj
    by_contra hne
    rcases Nat.lt_or_ge i j with h | h
    · exact hdist i j h hj' hij
    · exact hdist j i (by omega) hi' hij.symm
  set NZ : Finset Nat := (Finset.range 256).erase 0 with hNZ
  have hXsub : X ⊆ NZ := by
    intro w hw
    rcases Finset.mem_image.mp hw with ⟨i, _, rfl⟩
    exact Finset.mem_erase.mpr
      ⟨powGen_ne_zero p g hdist i, Finset.mem_range.mpr (powGen_lt p g i)⟩
  have hNZcard : NZ.card = 255 := by
    rw [hNZ, Finset.card_erase_of_mem (Finset.mem_range.mpr (by norm_num)),
      Finset.card_range]
  have heq : X = NZ := Finset.eq_of_subset_of_card_le hXsub (by omega)
  have hvmem : v ∈ X := by
    rw [heq, hNZ]
    exact Finset.mem_erase.mpr ⟨hv0, Finset.mem_range.mpr hv⟩
  rcases Finset.mem_image.mp hvmem with ⟨i, hi, he⟩
  exact ⟨i, Finset.mem_range.mp hi, he⟩

/-- After a full cycle the running value returns to `1`. -/
theorem powGen_255 (p g : Nat)
    (hdist : ∀ i j, i < j → j < 255 → powGen p g i ≠ powGen p g j) :
    powGen p g 255 = 1 := by
  have h0 : powGen p g 255 ≠ 0 := powGen_ne_zero p g hdist 255
  rcases powGen_surj p g hdist (powGen_lt p g 255) h0 with ⟨j, hj, he⟩
  cases j with
  | zero => exact he.symm
  | succ j' =>
      exfalso
      have h255 : powGen p g 255 = genStep p g (powGen p g 254) := by
        have h : (255 : Nat) = 254 + 1 := rfl
        rw [h]
        simp only [powGen, Function.iterate_succ_apply']
      have hj1 : powGen p g (j' + 1) = genStep p g (powGen p g j') := by
        simp only [powGen, Function.iterate_succ_apply']
      have h1 : genStep p g (powGen p g j') = genStep p g (powGen p g 254) := by
        rw [← hj1, ← h255]
        exact he
      have h2 := genStep_inj p g hdist (powGen_lt p g j') (powGen_lt p g 254) h1
      have h3 : j' = 254 := by
        by_contra hne
        rcases Nat.lt_or_ge j' 254 with h | h
        · exact hdist j' 254 h (by omega) h2
        · exact hdist 254 j' (by omega) (by omega) h2.symm
      omega

theorem powGen_add_255 (p g : Nat)
    (hdist : ∀ i j, i < j → j < 255 → powGen p g i ≠ powGen p g j)
    (k : Nat) : powGen p g (k + 255) = powGen p g k := by
  have h := powGen_255 p g hdist
  simp only [powGen] at h ⊢
  rw [Function.iterate_add_apply, h]

theorem powGen_mod (p g : Nat)
    (hdist : ∀ i j, i < j → j < 255 → powGen p g i ≠ powGen p g j) :
    ∀ i, powGen p g i = powGen p g (i % 255) := by
  intro i
  induction i using Nat.strong_induction_on with
  | _ i ih =>
      by_cases h : i < 255
      · rw [Nat.mod_eq_of_lt h]
      · have h1 : i = (i - 255) + 255 := by omega
        rw [h1, powGen_add_255 p g hdist, ih (i - 255) (by omega)]
        congr 1
        omega

end Galois

namespace Galois

/-! ## Contents of the log and exp tables -/

theorem valid_dist {p g : Nat} (h : ValidField p g) :
    ∀ i j, i < j → j < 255 → powGen p g i ≠ powGen p g j :=
  (isGenerator_iff_distinct p g).mp h.2.2

theorem logLoop_fst (p g : Nat) : ∀ n, (logLoop p g n).1 = powGen p g n := by
  intro n
  induction n with
  | zero => rfl
  | succ n ih =>
      show genStep p g (logLoop p g n).1 = powGen p g (n + 1)
      rw [ih]
      simp only [powGen]
      exact (Function.iterate_succ_apply' _ _ _).symm

theorem logLoop_snd (p g : Nat)
    (hdist : ∀ i j, i < j → j < 255 → powGen p g i ≠ powGen p g j) :
    ∀ n, n ≤ 255 → ∀ j, j < n → (logLoop p g n).2 (powGen p g j) = j := by
  intro n
  induction n with
  | zero => intro _ j hj; omega
  | succ n ih =>
      intro hn j hj
      show upd (logLoop p g n).2 (logLoop p g n).1 n (powGen p g j) = j
      rw [logLoop_fst]
      unfold upd
      by_cases he : powGen p g j = powGen p g n
      · rw [if_pos he]
        by_contra hne
        rcases Nat.lt_or_ge j n with h | h
        · exact hdist j n h (by omega) he
        · omega
      · rw [if_neg he]
        have hjn : j ≠ n := fun h => he (by rw [h])
        exact ih (by omega) j (by omega)

theorem logF_powGen (p g : Nat)
    (hdist : ∀ i j, i < j → j < 255 → powGen p g i ≠ powGen p g j)
    {j : Nat} (hj : j < 255) : logF p g (powGen p g j) = j :=
  logLoop_snd p g hdist 255 (le_refl 255) j hj

theorem logLoop_le (p g : Nat) : ∀ n, n ≤ 255 → ∀ v, (logLoop p g n).2 v ≤ 254 := by
  intro n
  induction n with
  | zero => intro _ v; exact Nat.zero_le _
  | succ n ih =>
      intro hn v
      show upd (logLoop p g n).2 (logLoop p g n).1 n v ≤ 254
      unfold upd
      by_cases he : v = (logLoop p g n).1
      · rw [if_pos he]; omega
      · rw [if_neg he]; exact ih (by omega) v

theorem logF_le (p g v : Nat) : logF p g v ≤ 254 :=
  logLoop_le p g 255 (le_refl 255) v

theorem expF_eq (p g : Nat) {i : Nat} (hi : i ≤ 510) :
    expF p g i = powGen p g (i % 255) := by
  unfold expF
  by_cases h : i < 255
  · rw [if_pos h, Nat.mod_eq_of_lt h]
  · rw [if_neg h, if_pos hi]
    congr 1
    omega

theorem expF_lt (p g i : Nat) : expF p g i < 256 := by
  unfold expF
  by_cases h1 : i < 255
  · rw [if_pos h1]; exact powGen_lt _ _ _
  · rw [if_neg h1]
    by_cases h2 : i ≤ 510
    · rw [if_pos h2]; exact powGen_lt _ _ _
    · rw [if_neg h2]; norm_num

/-- The table-based `mul` method agrees with `mulByte` on every pair of
byte operands of a validly constructed field. -/
theorem mul_refines {p g : Nat} (hf : ValidField p g) {a b : Nat}
    (ha : a ≤ 255) (hb : b ≤ 255) : mul p g a b = .ok (mulByte a b p) := by
  have hdist := valid_dist hf
  unfold mul
  rw [if_neg (by omega), if_neg (by omega)]
  by_cases h0 : a = 0 ∨ b = 0
  · rw [if_pos h0]
    rcases h0 with h | h
    · subst h; rw [mulByte_zero_left]
    · subst h; rw [mulByte_zero_right]
  · rw [if_neg h0]
    push_neg at h0
    rcases powGen_surj p g hdist (show a < 256 by omega) h0.1 with ⟨i, hi, hea⟩
    rcases powGen_surj p g hdist (show b < 256 by omega) h0.2 with ⟨j, hj, heb⟩
    rw [← hea, ← heb, logF_powGen p g hdist hi, logF_powGen p g hdist hj,
      mulByte_powGen_powGen, expF_eq p g (by omega), ← powGen_mod p g hdist]

end Galois

namespace Galois

/-! ## Claim theorems -/

/-- The AES field `(0x11B, 0x03)` passes construction validation. -/
theorem validAES : ValidField 283 3 := ⟨by norm_num, by norm_num, by rfl⟩

/-- C1: for every successfully constructed field, the `exp` and `log`
tables are mutual inverses on the 255 nonzero byte values: for every
nonzero byte `v`, `exp[log[v]] = v`, and for every exponent `i < 255`,
`log[exp[i]] = i`. -/
theorem C1_exp_log_mutual_inverses (p g : Nat) (hf : ValidField p g) :
    (∀ v, 0 < v → v ≤ 255 → expF p g (logF p g v) = v) ∧
    (∀ i, i < 255 → logF p g (expF p g i) = i) := by
  have hdist := valid_dist hf
  constructor
  · intro v hv0 hv
    rcases powGen_surj p g hdist (show v < 256 by omega) (by omega) with ⟨i, hi, he⟩
    rw [← he, logF_powGen p g hdist hi]
    unfold expF
    rw [if_pos hi]
  · intro i hi
    unfold expF
    rw [if_pos hi, logF_powGen p g hdist hi]

/-- Witness for C1 at the AES field, `v = 100` and `i = 7`. -/
theorem C1_witness :
    ValidField 283 3 ∧ expF 283 3 (logF 283 3 100) = 100 ∧
      logF 283 3 (expF 283 3 7) = 7 := by
  exact ⟨validAES,
    (C1_exp_log_mutual_inverses 283 3 validAES).1 100 (by norm_num) (by norm_num),
    (C1_exp_log_mutual_inverses 283 3 validAES).2 7 (by norm_num)⟩

/-- C4: for every field and byte operands, `div` fails with the
division-by-zero error exactly when `b = 0`; `div 0 b = 0` for nonzero
`b`; and for nonzero `a, b` it returns `exp` at the (possibly
255-adjusted) difference of logs. -/
theorem C4_div_spec (p g a b : Nat) (hf : ValidField p g)
    (ha : a ≤ 255) (hb : b ≤ 255) :
    (div p g a b = .error .divisionByZero ↔ b = 0) ∧
    (b ≠ 0 → div p g 0 b = .ok 0) ∧
    (a ≠ 0 → b ≠ 0 → div p g a b =
      .ok (expF p g
        (let d : Int := (logF p g a : Int) - (logF p g b : Int)
         (if d < 0 then d + 255 else d).toNat))) := by
  refine ⟨⟨?_, ?_⟩, ?_, ?_⟩
  · intro he
    by_contra hb0
    unfold div at he
    rw [if_neg (by omega), if_neg (by omega), if_neg hb0] at he
    by_cases ha0 : a = 0
    · rw [if_pos ha0] at he
      exact absurd he (by simp)
    · rw [if_neg ha0] at he
      exact absurd he (by simp)
  · intro hb0
    unfold div
    rw [if_neg (by omega), if_neg (by omega), if_pos hb0]
  · intro hb0
    unfold div
    rw [if_neg (by omega), if_neg (by omega), if_neg hb0, if_pos rfl]
  · intro ha0 hb0
    unfold div
    rw [if_neg (by omega), if_neg (by omega), if_neg hb0, if_neg ha0]

/-- Witness for C4 at the AES field: `div 5 0` raises division by zero,
`div 0 7` returns 0, and `div 6 3` takes the table path. -/
theorem C4_witness :
    div 283 3 5 0 = .error .divisionByZero ∧ div 283 3 0 7 = .ok 0 ∧
      div 283 3 6 3 =
        .ok (expF 283 3
          (let d : Int := (logF 283 3 6 : Int) - (logF 283 3 3 : Int)
           (if d < 0 then d + 255 else d).toNat)) := by
  exact ⟨(C4_div_spec 283 3 5 0 validAES (by norm_num) (by norm_num)).1.mpr rfl,
    (C4_div_spec 283 3 0 7 validAES (by norm_num) (by norm_num)).2.1 (by norm_num),
    (C4_div_spec 283 3 6 3 validAES (by norm_num) (by norm_num)).2.2 (by norm_num)
      (by norm_num)⟩

/-- C5: `isGenerator poly c` is true exactly when the 255 successive
powers `1, c, c², …, c²⁵⁴` (computed by repeated `mulByte` starting from
1) are pairwise distinct; it holds for the AES pair `(0x11B, 0x03)` and
fails for candidates 0 and 1 under every 16-bit polynomial. -/
theorem C5_isGenerator_spec :
    (∀ p c : Nat, p ≤ 65535 → c ≤ 255 →
      (isGenerator p c = true ↔
        ∀ i j, i < j → j < 255 → powGen p c i ≠ powGen p c j)) ∧
    isGenerator 283 3 = true ∧
    (∀ p : Nat, p ≤ 65535 → isGenerator p 0 = false) ∧
    (∀ p : Nat, p ≤ 65535 → isGenerator p 1 = false) := by
  refine ⟨fun p c _ _ => isGenerator_iff_distinct p c, validAES.2.2, ?_, ?_⟩
  · intro p _
    by_contra h
    have h' : isGenerator p 0 = true := by
      revert h
      cases isGenerator p 0 <;> simp
    have hd := (isGenerator_iff_distinct p 0).mp h'
    have h1 : powGen p 0 1 = 0 := by
      simp only [powGen]
      rw [Function.iterate_succ_apply', Function.iterate_zero_apply]
      exact mulByte_zero_right 1 p
    have h2 : powGen p 0 2 = 0 := by
      simp only [powGen]
      rw [Function.iterate_succ_apply']
      exact mulByte_zero_right _ p
    exact hd 1 2 (by omega) (by omega) (h1.trans h2.symm)
  · intro p _
    by_contra h
    have h' : isGenerator p 1 = true := by
      revert h
      cases isGenerator p 1 <;> simp
    have hd := (isGenerator_iff_distinct p 1).mp h'
    have h1 : powGen p 1 1 = 1 := by
      simp only [powGen]
      rw [Function.iterate_succ_apply', Function.iterate_zero_apply]
      exact mulByte_one_right (by norm_num) p
    exact hd 0 1 (by omega) (by omega) h1.symm

/-- Witness for C5: the concrete generator checks at the AES polynomial. -/
theorem C5_witness :
    isGenerator 283 3 = true ∧ isGenerator 283 0 = false ∧
      isGenerator 283 1 = false :=
  ⟨C5_isGenerator_spec.2.1, C5_isGenerator_spec.2.2.1 283 (by norm_num),
    C5_isGenerator_spec.2.2.2 283 (by norm_num)⟩

end Galois

namespace Galois

/-- C6 counterexample: in the AES field the claim fails at index 511.  The
duplication loop writes only `exp[255..510]`, so `exp[511]` keeps the
`Uint8Array`'s initial 0, while the generator's first power is 3; the
period equation likewise fails at `i = 256` because `i + 255 = 511`. -/
theorem C6_counterexample :
    ValidField 283 3 ∧
    expF 283 3 511 ≠ powGen 283 3 (511 % 255) ∧
    expF 283 3 (256 + 255) ≠ expF 283 3 256 := by
  refine ⟨validAES, by decide, by decide⟩

/-- C6 amended: the 512-entry `exp` table of every constructed field has
period 255 on its written range: `exp[i]` equals the generator raised to
the power `i mod 255` for every `i < 511`, equivalently
`exp[i+255] = exp[i]` whenever `i + 255 < 511` (index 511 is never
written and keeps the initial 0). -/
theorem C6_exp_period (p g : Nat) (hf : ValidField p g) :
    (∀ i, i < 511 → expF p g i = powGen p g (i % 255)) ∧
    (∀ i, i + 255 < 511 → expF p g (i + 255) = expF p g i) := by
  constructor
  · intro i hi
    exact expF_eq p g (by omega)
  · intro i hi
    rw [expF_eq p g (by omega), expF_eq p g (by omega)]
    congr 1
    omega

/-- Witness for the amended C6 at the AES field, `i = 300` and `i = 100`. -/
theorem C6_witness :
    ValidField 283 3 ∧ expF 283 3 300 = powGen 283 3 (300 % 255) ∧
      expF 283 3 (100 + 255) = expF 283 3 100 :=
  ⟨validAES, (C6_exp_period 283 3 validAES).1 300 (by norm_num),
    (C6_exp_period 283 3 validAES).2 100 (by norm_num)⟩

/-- C7: in every constructed field, `inv` fails with the no-inverse error
exactly on 0; on a nonzero byte `a` it returns `exp[255 - log[a]]`, and
multiplying `a` by that value gives 1. -/
theorem C7_inv_spec (p g : Nat) (hf : ValidField p g) :
    inv p g 0 = .error .noInverseForZero ∧
    (∀ a, 0 < a → a ≤ 255 →
      inv p g a = .ok (expF p g (255 - logF p g a)) ∧
      mul p g a (expF p g (255 - logF p g a)) = .ok 1) := by
  have hdist := valid_dist hf
  constructor
  · unfold inv
    rw [if_neg (by omega), if_pos rfl]
  · intro a ha0 ha
    have hinv : inv p g a = .ok (expF p g (255 - logF p g a)) := by
      unfold inv
      rw [if_neg (by omega), if_neg (by omega)]
    refine ⟨hinv, ?_⟩
    rcases powGen_surj p g hdist (show a < 256 by omega) (by omega) with ⟨i, hi, hea⟩
    have hlog : logF p g a = i := by rw [← hea, logF_powGen p g hdist hi]
    have hr : expF p g (255 - logF p g a) = powGen p g ((255 - i) % 255) := by
      rw [hlog, expF_eq p g (by omega)]
    rw [hr]
    unfold mul
    rw [if_neg (by omega),
      if_neg (by have := powGen_lt p g ((255 - i) % 255); omega),
      if_neg (by
        rintro (h | h)
        · omega
        · exact powGen_ne_zero p g hdist _ h),
      hlog, logF_powGen p g hdist (Nat.mod_lt _ (by norm_num)),
      expF_eq p g (by omega)]
    have hz : (i + (255 - i) % 255) % 255 = 0 := by omega
    rw [hz]
    rfl

/-- Witness for C7 at the AES field and `a = 0x53`. -/
theorem C7_witness :
    inv 283 3 0 = .error .noInverseForZero ∧
    inv 283 3 83 = .ok (expF 283 3 (255 - logF 283 3 83)) ∧
    mul 283 3 83 (expF 283 3 (255 - logF 283 3 83)) = .ok 1 :=
  ⟨(C7_inv_spec 283 3 validAES).1,
    ((C7_inv_spec 283 3 validAES).2 83 (by norm_num) (by norm_num)).1,
    ((C7_inv_spec 283 3 validAES).2 83 (by norm_num) (by norm_num)).2⟩

/-- C2: for every constructed field and all byte operands, the table-based
`mul` method returns the same byte as the carry-less multiply-and-reduce
routine `mulByte`. -/
theorem C2_mul_eq_mulByte (p g a b : Nat) (hf : ValidField p g)
    (ha : a ≤ 255) (hb : b ≤ 255) :
    mul p g a b = .ok (mulByte a b p) :=
  mul_refines hf ha hb

/-- Witness for C2 at the AES field and operands 100 × 100. -/
theorem C2_witness :
    mul 283 3 100 100 = .ok (mulByte 100 100 283) ∧ mulByte 100 100 283 = 215 :=
  ⟨C2_mul_eq_mulByte 283 3 100 100 validAES (by norm_num) (by norm_num), by rfl⟩

/-- C9: the spec's literal scenarios in the AES field
(0x53 = 83, 0xCA = 202, 0x99 = 153). -/
theorem C9_literal_scenarios :
    add 83 202 = .ok 153 ∧
    mul 283 3 100 100 = .ok 215 ∧
    mul 283 3 255 255 = .ok 19 ∧
    evaluate 283 3 [1, 2, 3] 1 = .ok 0 ∧
    evaluate 283 3 [1, 2, 3] 2 = .ok 9 ∧
    evaluate 283 3 [1, 2, 3] 0 = .error .invalidEvaluationPoint ∧
    div 283 3 5 0 = .error .divisionByZero ∧
    inv 283 3 0 = .error .noInverseForZero :=
  ⟨rfl, rfl, rfl, rfl, rfl, rfl, rfl, rfl⟩

end Galois

namespace Galois

/-- C10: for a constructed field and byte-validated operands, every table
index used by `mul`, `div` and `inv` stays in bounds — the log sum is at
most 508, the adjusted log difference at most 254, the inverse index in
`[1, 255]`, all below the 512-entry `exp` table — and each operation is
total: it returns a byte or raises its specified validation error. -/
theorem C10_index_bounds (p g a b : Nat) (hf : ValidField p g)
    (ha : a ≤ 255) (hb : b ≤ 255) :
    (logF p g a + logF p g b ≤ 508 ∧ logF p g a + logF p g b < 512) ∧
    ((let d : Int := (logF p g a : Int) - (logF p g b : Int)
      (if d < 0 then d + 255 else d).toNat ≤ 254) ∧
     (let d : Int := (logF p g a : Int) - (logF p g b : Int)
      (if d < 0 then d + 255 else d).toNat < 512)) ∧
    (1 ≤ 255 - logF p g a ∧ 255 - logF p g a ≤ 255 ∧ 255 - logF p g a < 512) ∧
    (∃ r, mul p g a b = .ok r ∧ r ≤ 255) ∧
    ((b = 0 ∧ div p g a b = .error .divisionByZero) ∨
      (∃ r, div p g a b = .ok r ∧ r ≤ 255)) ∧
    ((a = 0 ∧ inv p g a = .error .noInverseForZero) ∨
      (∃ r, inv p g a = .ok r ∧ r ≤ 255)) := by
  have hla := logF_le p g a
  have hlb := logF_le p g b
  have hd : (let d : Int := (logF p g a : Int) - (logF p g b : Int)
      (if d < 0 then d + 255 else d).toNat ≤ 254) := by
    dsimp only
    by_cases h : ((logF p g a : Int) - (logF p g b : Int)) < 0
    · rw [if_pos h]; omega
    · rw [if_neg h]; omega
  refine ⟨by omega, ⟨hd, by dsimp only at hd ⊢; omega⟩, by omega, ?_, ?_, ?_⟩
  · unfold mul
    rw [if_neg (by omega), if_neg (by omega)]
    by_cases h0 : a = 0 ∨ b = 0
    · rw [if_pos h0]
      exact ⟨0, rfl, by norm_num⟩
    · rw [if_neg h0]
      exact ⟨_, rfl, Nat.lt_succ_iff.mp (expF_lt p g _)⟩
  · unfold div
    rw [if_neg (by omega), if_neg (by omega)]
    by_cases hb0 : b = 0
    · exact Or.inl ⟨hb0, by rw [if_pos hb0]⟩
    · refine Or.inr ?_
      rw [if_neg hb0]
      by_cases ha0 : a = 0
      · rw [if_pos ha0]
        exact ⟨0, rfl, by norm_num⟩
      · rw [if_neg ha0]
        exact ⟨_, rfl, Nat.lt_succ_iff.mp (expF_lt p g _)⟩
  · unfold inv
    rw [if_neg (by omega)]
    by_cases ha0 : a = 0
    · exact Or.inl ⟨ha0, by rw [if_pos ha0]⟩
    · refine Or.inr ?_
      rw [if_neg ha0]
      exact ⟨_, rfl, Nat.lt_succ_iff.mp (expF_lt p g _)⟩

/-- Witness for C10 at the AES field with operands 100 and 100. -/
theorem C10_witness :
    logF 283 3 100 + logF 283 3 100 ≤ 508 ∧
    (∃ r, mul 283 3 100 100 = .ok r ∧ r ≤ 255) ∧
    (∃ r, inv 283 3 100 = .ok r ∧ r ≤ 255) := by
  have h := C10_index_bounds 283 3 100 100 validAES (by norm_num) (by norm_num)
  refine ⟨h.1.1, h.2.2.2.1, ?_⟩
  rcases h.2.2.2.2.2 with ⟨ha, _⟩ | hr
  · exact absurd ha (by norm_num)
  · exact hr

end Galois

namespace Galois

/-! ## Horner evaluation as a field polynomial sum -/

/-- The Horner recurrence of `evaluate` on the already-reversed coefficient
list, with the accumulator update written out over bytes:
`acc ← mul(acc, x) ⊕ c`. -/
def hornerList (p x : Nat) : Nat → List Nat → Nat
  | acc, [] => acc
  | acc, c :: rest => hornerList p x (mulByte acc x p ^^^ c) rest

/-- The reversed list of the first `k` coefficients, `[c_{k-1}, …, c_0]`. -/
def revCoeffs (cs : List Nat) : Nat → List Nat
  | 0 => []
  | k + 1 => cs.getD k 0 :: revCoeffs cs k

/-- The field polynomial sum `Σ_i coeffs[i] · x^i`: field addition is xor
and `x^i` is computed by repeated source multiplication. -/
def polySum (p : Nat) (coeffs : List Nat) (x : Nat) : Nat :=
  xfold (fun i => mulByte (coeffs.getD i 0) (powGen p x i) p) coeffs.length

theorem getD_le {cs : List Nat} (hcs : ∀ c ∈ cs, c ≤ 255) (i : Nat) :
    cs.getD i 0 ≤ 255 := by
  by_cases h : i < cs.length
  · rw [List.getD_eq_getElem cs 0 h]
    exact hcs _ (List.getElem_mem h)
  · rw [List.getD_eq_default cs 0 (by omega)]
    norm_num

theorem mulByte_linear_left {u v : Nat} (hu : u < 256) (hv : v < 256) (b p : Nat) :
    mulByte (u ^^^ v) b p = mulByte u b p ^^^ mulByte v b p := by
  rw [mulByte_eq_McAux (xor_lt_256 hu hv), mulByte_eq_McAux hu,
    mulByte_eq_McAux hv, McAux_linear_left]

theorem ok_bind {α β : Type} (a : α) (f : α → Except GFErr β) :
    (Except.ok a >>= f) = f a := rfl

/-- The `evaluate` fold never throws on byte inputs and computes the
Horner recurrence. -/
theorem eval_fold_ok {p g : Nat} (hf : ValidField p g) {x : Nat} (hx : x ≤ 255) :
    ∀ (rest : List Nat) (acc : Nat), acc ≤ 255 → (∀ c ∈ rest, c ≤ 255) →
      (List.foldlM (fun acc c => do
          let m ← mul p g acc x
          add m c) acc rest : Except GFErr Nat) = .ok (hornerList p x acc rest) := by
  intro rest
  induction rest with
  | nil => intro acc _ _; rfl
  | cons c rest ih =>
      intro acc hacc hcs
      have hm := mul_refines hf (a := acc) (b := x) hacc hx
      have hc : c ≤ 255 := hcs c (List.mem_cons_self c rest)
      have hmb := mulByte_lt acc x p
      simp only [List.foldlM]
      rw [hm, ok_bind]
      have hadd : add (mulByte acc x p) c = .ok (mulByte acc x p ^^^ c) := by
        unfold add
        rw [if_neg (by omega), if_neg (by omega)]
      rw [hadd, ok_bind, hornerList]
      exact ih (mulByte acc x p ^^^ c)
        (Nat.lt_succ_iff.mp (xor_lt_256 hmb (by omega)))
        (fun d hd => hcs d (List.mem_cons_of_mem c hd))

/-- Horner invariant: processing the reversed first `k` coefficients from
accumulator `acc` yields `acc · x^k ⊕ Σ_{i<k} c_i · x^i`. -/
theorem horner_invariant (p x : Nat) (cs : List Nat)
    (hcs : ∀ c ∈ cs, c ≤ 255) :
    ∀ k acc, acc ≤ 255 → hornerList p x acc (revCoeffs cs k) =
      mulByte acc (powGen p x k) p ^^^
      xfold (fun i => mulByte (cs.getD i 0) (powGen p x i) p) k := by
  intro k
  induction k with
  | zero =>
      intro acc hacc
      show acc = mulByte acc (powGen p x 0) p ^^^ xfold _ 0
      rw [show powGen p x 0 = 1 from rfl, mulByte_one_right (by omega) p]
      exact (Nat.xor_zero acc).symm
  | succ k ih =>
      intro acc hacc
      show hornerList p x (mulByte acc x p ^^^ cs.getD k 0) (revCoeffs cs k) = _
      rw [ih _ (Nat.lt_succ_iff.mp
        (xor_lt_256 (mulByte_lt acc x p) (by have := getD_le hcs k; omega)))]
      rw [mulByte_linear_left (mulByte_lt acc x p)
        (by have := getD_le hcs k; omega)]
      have hassoc : mulByte (mulByte acc x p) (powGen p x k) p =
          mulByte acc (powGen p x (k + 1)) p := by
        rw [mulByte_powGen p x (mulByte_lt acc x p) k,
          mulByte_powGen p x (show acc < 256 by omega) (k + 1)]
        exact (Function.iterate_succ_apply (genStep p x) k acc).symm
      rw [hassoc, xfold]
      rw [Nat.xor_assoc]
      congr 1
      exact Nat.xor_comm _ _

theorem revCoeffs_take (cs : List Nat) : ∀ k, k ≤ cs.length →
    revCoeffs cs k = (cs.take k).reverse := by
  intro k
  induction k with
  | zero => intro _; rfl
  | succ k ih =>
      intro hk
      have hk' : k < cs.length := by omega
      rw [revCoeffs, ih (by omega), List.take_succ, List.reverse_append,
        List.getElem?_eq_getElem hk', List.getD_eq_getElem cs 0 hk']
      rfl

end Galois

namespace Galois

/-- On a nonempty byte coefficient list and a nonzero byte point, the
`evaluate` method succeeds with the field polynomial sum. -/
theorem evaluate_ok {p g : Nat} (hf : ValidField p g) {coeffs : List Nat}
    (hcs : ∀ c ∈ coeffs, c ≤ 255) {x : Nat} (hx : x ≤ 255)
    (hc : coeffs ≠ []) (hx0 : x ≠ 0) :
    evaluate p g coeffs x = .ok (polySum p coeffs x) := by
  unfold evaluate
  rw [if_neg (by omega),
    if_neg (fun h0 => hc (List.length_eq_zero.mp h0)), if_neg hx0]
  have hn0 : 0 < coeffs.length := List.length_pos.mpr hc
  have h2 : coeffs.length = (coeffs.length - 1) + 1 := by omega
  have hrev : coeffs.reverse =
      coeffs.getD (coeffs.length - 1) 0 :: revCoeffs coeffs (coeffs.length - 1) := by
    have h1 : revCoeffs coeffs coeffs.length = coeffs.reverse := by
      rw [revCoeffs_take coeffs coeffs.length (le_refl _), List.take_length]
    rw [← h1]
    conv_lhs => rw [h2]
    rfl
  rw [hrev]
  show List.foldlM _ (coeffs.getD (coeffs.length - 1) 0)
      (revCoeffs coeffs (coeffs.length - 1)) = Except.ok (polySum p coeffs x)
  rw [eval_fold_ok hf hx (revCoeffs coeffs (coeffs.length - 1))
    (coeffs.getD (coeffs.length - 1) 0) (getD_le hcs _) ?hrest]
  case hrest =>
    intro c hcmem
    have := revCoeffs_take coeffs (coeffs.length - 1) (by omega)
    rw [this] at hcmem
    exact hcs c (List.mem_of_mem_take (List.mem_reverse.mp hcmem))
  congr 1
  rw [horner_invariant p x coeffs hcs (coeffs.length - 1) _ (getD_le hcs _)]
  unfold polySum
  conv_rhs => rw [h2]
  rw [xfold]
  exact Nat.xor_comm _ _

/-- C8: `evaluate` fails with the empty-polynomial error on an empty
coefficient list, fails with the invalid-evaluation-point error at
`x = 0`, and otherwise returns the Horner fold, which equals the field
sum `Σ_i coeffs[i] · x^i`. -/
theorem C8_evaluate_spec (p g : Nat) (hf : ValidField p g) (coeffs : List Nat)
    (hcs : ∀ c ∈ coeffs, c ≤ 255) (x : Nat) (hx : x ≤ 255) :
    (coeffs = [] → evaluate p g coeffs x = .error .emptyPolynomial) ∧
    (coeffs ≠ [] → x = 0 → evaluate p g coeffs x = .error .invalidEvaluationPoint) ∧
    (coeffs ≠ [] → x ≠ 0 → evaluate p g coeffs x = .ok (polySum p coeffs x)) := by
  refine ⟨?_, ?_, ?_⟩
  · intro hc
    unfold evaluate
    rw [if_neg (by omega), if_pos (by rw [hc]; rfl)]
  · intro hc hx0
    unfold evaluate
    rw [if_neg (by omega),
      if_neg (fun h0 => hc (List.length_eq_zero.mp h0)), if_pos hx0]
  · exact evaluate_ok hf hcs hx

/-- Witness for C8 at the AES field: success at `[1,2,3]` with `x = 2`,
the empty-polynomial failure, and the `x = 0` failure. -/
theorem C8_witness :
    evaluate 283 3 [1, 2, 3] 2 = .ok (polySum 283 [1, 2, 3] 2) ∧
    evaluate 283 3 [] 2 = .error .emptyPolynomial ∧
    evaluate 283 3 [1, 2, 3] 0 = .error .invalidEvaluationPoint := by
  have hent : ∀ c ∈ [1, 2, 3], c ≤ 255 := by
    intro c hcm
    fin_cases hcm <;> norm_num
  exact ⟨(C8_evaluate_spec 283 3 validAES [1, 2, 3] hent 2 (by norm_num)).2.2
      (by simp) (by norm_num),
    (C8_evaluate_spec 283 3 validAES [] (by simp) 2 (by norm_num)).1 rfl,
    (C8_evaluate_spec 283 3 validAES [1, 2, 3] hent 0 (by norm_num)).2.1
      (by simp) rfl⟩

end Galois

namespace Galois

/-! ## Byte-level field laws under a valid generator -/

theorem mulByte_linear_right {a : Nat} (ha : a < 256) (u v p : Nat) :
    mulByte a (u ^^^ v) p = mulByte a u p ^^^ mulByte a v p := by
  rw [mulByte_eq_McAux ha, mulByte_eq_McAux ha, mulByte_eq_McAux ha,
    McAux_linear_right]

theorem genStep_iterate_lt (p g : Nat) {b : Nat} (hb : b < 256) (k : Nat) :
    (genStep p g)^[k] b < 256 := by
  cases k with
  | zero => exact hb
  | succ k =>
      rw [Function.iterate_succ_apply']
      exact mulByte_lt _ _ _

theorem mulByte_iter_genStep (p g : Nat) {a b : Nat} (ha : a < 256) (hb : b < 256)
    (k : Nat) :
    mulByte a ((genStep p g)^[k] b) p = (genStep p g)^[k] (mulByte a b p) := by
  induction k with
  | zero => rfl
  | succ k ih =>
      rw [Function.iterate_succ_apply', Function.iterate_succ_apply',
        mulByte_genStep p g ha (genStep_iterate_lt p g hb k), ih]

theorem mulByte_one_left {b : Nat} (hb : b < 256) (p : Nat) : mulByte 1 b p = b := by
  rw [mulByte_comm (by norm_num) hb, mulByte_one_right hb]

theorem mulByte_assoc {p g : Nat} (hf : ValidField p g) {a b c : Nat}
    (ha : a < 256) (hb : b < 256) (hc : c < 256) :
    mulByte a (mulByte b c p) p = mulByte (mulByte a b p) c p := by
  have hdist := valid_dist hf
  by_cases hc0 : c = 0
  · subst hc0
    rw [mulByte_zero_right, mulByte_zero_right, mulByte_zero_right]
  · rcases powGen_surj p g hdist hc hc0 with ⟨k, _, hck⟩
    rw [← hck, mulByte_powGen p g hb k, mulByte_iter_genStep p g ha hb k,
      ← mulByte_powGen p g (mulByte_lt a b p) k]

theorem mulByte_invByte {p g : Nat} (hf : ValidField p g) {a : Nat}
    (ha0 : a ≠ 0) (ha : a < 256) :
    mulByte a (expF p g (255 - logF p g a)) p = 1 := by
  have hdist := valid_dist hf
  rcases powGen_surj p g hdist ha ha0 with ⟨i, hi, hea⟩
  have hlog : logF p g a = i := by rw [← hea, logF_powGen p g hdist hi]
  rw [hlog, expF_eq p g (by omega), ← hea, mulByte_powGen_powGen,
    powGen_mod p g hdist]
  have hz : (i + (255 - i) % 255) % 255 = 0 := by omega
  rw [hz]
  rfl

/-- The `div` method on a nonzero denominator returns the product with the
denominator's inverse byte. -/
theorem div_refines {p g : Nat} (hf : ValidField p g) {a b : Nat}
    (ha : a ≤ 255) (hb : b ≤ 255) (hb0 : b ≠ 0) :
    div p g a b = .ok (mulByte a (expF p g (255 - logF p g b)) p) := by
  have hdist := valid_dist hf
  unfold div
  rw [if_neg (by omega), if_neg (by omega), if_neg hb0]
  rcases powGen_surj p g hdist (show b < 256 by omega) hb0 with ⟨j, hj, heb⟩
  have hlogb : logF p g b = j := by rw [← heb, logF_powGen p g hdist hj]
  by_cases ha0 : a = 0
  · rw [if_pos ha0, ha0, mulByte_zero_left]
  · rw [if_neg ha0]
    rcases powGen_surj p g hdist (show a < 256 by omega) ha0 with ⟨i, hi, hea⟩
    have hloga : logF p g a = i := by rw [← hea, logF_powGen p g hdist hi]
    have hrhs : mulByte a (expF p g (255 - logF p g b)) p =
        powGen p g ((i + (255 - j) % 255) % 255) := by
      rw [hlogb, expF_eq p g (by omega), ← hea, mulByte_powGen_powGen,
        powGen_mod p g hdist]
    rw [hrhs, hloga, hlogb]
    dsimp only
    by_cases hd : ((i : Int) - (j : Int)) < 0
    · rw [if_pos hd]
      have ht : ((i : Int) - (j : Int) + 255).toNat = i + 255 - j := by omega
      rw [ht, expF_eq p g (by omega)]
      congr 2
      omega
    · rw [if_neg hd]
      have ht : ((i : Int) - (j : Int)).toNat = i - j := by omega
      rw [ht, expF_eq p g (by omega)]
      congr 2
      omega

theorem polySum_lt (p : Nat) (coeffs : List Nat) (x : Nat) :
    polySum p coeffs x < 256 := by
  unfold polySum
  exact xfold_lt _ _ (fun i _ => mulByte_lt _ _ _)

end Galois

namespace Galois

/-! ## The field of bytes of a validly constructed `GF256` instance -/

/-- An element of a validly constructed field: a byte, carrying the
arithmetic the class methods implement. -/
structure GFElt (p g : Nat) (hf : ValidField p g) : Type where
  val : Nat
  lt : val < 256

theorem GFElt.ext_val {p g : Nat} {hf : ValidField p g} {a b : GFElt p g hf}
    (h : a.val = b.val) : a = b := by
  cases a
  cases b
  subst h
  rfl

section FieldInstance

variable {p g : Nat} {hf : ValidField p g}

instance : Zero (GFElt p g hf) := ⟨⟨0, by norm_num⟩⟩

instance : One (GFElt p g hf) := ⟨⟨1, by norm_num⟩⟩

instance : Add (GFElt p g hf) :=
  ⟨fun a b => ⟨a.val ^^^ b.val, xor_lt_256 a.lt b.lt⟩⟩

instance : Neg (GFElt p g hf) := ⟨fun a => a⟩

instance : Mul (GFElt p g hf) :=
  ⟨fun a b => ⟨mulByte a.val b.val p, mulByte_lt _ _ _⟩⟩

instance : Inv (GFElt p g hf) :=
  ⟨fun a => if a.val = 0 then ⟨0, by norm_num⟩
    else ⟨expF p g (255 - logF p g a.val), expF_lt _ _ _⟩⟩

theorem GFElt.val_add (a b : GFElt p g hf) : (a + b).val = a.val ^^^ b.val := rfl

theorem GFElt.val_mul (a b : GFElt p g hf) :
    (a * b).val = mulByte a.val b.val p := rfl

theorem GFElt.val_zero : (0 : GFElt p g hf).val = 0 := rfl

theorem GFElt.val_one : (1 : GFElt p g hf).val = 1 := rfl

theorem GFElt.val_inv (a : GFElt p g hf) (h : a.val ≠ 0) :
    (a⁻¹).val = expF p g (255 - logF p g a.val) := by
  have he : a⁻¹ = if a.val = 0 then (⟨0, by norm_num⟩ : GFElt p g hf)
      else ⟨expF p g (255 - logF p g a.val), expF_lt _ _ _⟩ := rfl
  rw [he, if_neg h]

instance : Field (GFElt p g hf) :=
  Field.ofMinimalAxioms _
    (fun a b c => GFElt.ext_val (Nat.xor_assoc _ _ _))
    (fun a => GFElt.ext_val (Nat.zero_xor _))
    (fun a => GFElt.ext_val (Nat.xor_self _))
    (fun a b c => GFElt.ext_val (mulByte_assoc hf a.lt b.lt c.lt).symm)
    (fun a b => GFElt.ext_val (mulByte_comm a.lt b.lt p))
    (fun a => GFElt.ext_val (mulByte_one_left a.lt p))
    (fun a ha => GFElt.ext_val (by
      have hv0 : a.val ≠ 0 := fun h => ha (GFElt.ext_val h)
      show mulByte a.val (a⁻¹).val p = 1
      rw [GFElt.val_inv a hv0]
      exact mulByte_invByte hf hv0 a.lt))
    (GFElt.ext_val rfl)
    (fun a b c => GFElt.ext_val (mulByte_linear_right a.lt _ _ p))
    ⟨0, 1, fun h => by
      have := congrArg GFElt.val h
      rw [GFElt.val_zero, GFElt.val_one] at this
      exact absurd this (by norm_num)⟩

theorem GFElt.val_sub (a b : GFElt p g hf) : (a - b).val = a.val ^^^ b.val := by
  rw [sub_eq_add_neg]
  rfl

end FieldInstance

end Galois

namespace Galois

/-! ## Polynomials over the field of a constructed `GF256` -/

section PolyBridge

variable {p g : Nat} {hf : ValidField p g}

/-- Injection of a byte into the field (values above 255 are masked; all
uses are on bytes, where `mkB_val` applies). -/
def GFElt.mkB (p g : Nat) (hf : ValidField p g) (v : Nat) : GFElt p g hf :=
  ⟨v &&& 255, and255_lt v⟩

theorem GFElt.mkB_val {v : Nat} (hv : v ≤ 255) :
    (GFElt.mkB p g hf v).val = v := and255_of_lt (by omega)

theorem GFElt.val_pow (x : GFElt p g hf) (i : Nat) :
    (x ^ i).val = powGen p x.val i := by
  induction i with
  | zero => rw [pow_zero]; rfl
  | succ i ih =>
      rw [pow_succ, GFElt.val_mul, ih]
      simp only [powGen]
      rw [Function.iterate_succ_apply']
      rfl

theorem GFElt.val_sum (n : Nat) (f : Nat → GFElt p g hf) :
    ((Finset.range n).sum f).val = xfold (fun i => (f i).val) n := by
  induction n with
  | zero => rw [Finset.sum_range_zero]; rfl
  | succ n ih => rw [Finset.sum_range_succ, GFElt.val_add, ih]; rfl

/-- Evaluating the polynomial with the given byte coefficients at a field
point computes the byte `polySum`. -/
theorem eval_listPoly (coeffs : List Nat) (hcs : ∀ c ∈ coeffs, c ≤ 255)
    (x : GFElt p g hf) :
    (Polynomial.eval x (∑ i ∈ Finset.range coeffs.length,
        Polynomial.C (GFElt.mkB p g hf (coeffs.getD i 0)) * Polynomial.X ^ i)).val
      = polySum p coeffs x.val := by
  rw [Polynomial.eval_finset_sum, GFElt.val_sum]
  unfold polySum
  apply xfold_congr
  intro i _
  rw [Polynomial.eval_mul, Polynomial.eval_C, Polynomial.eval_pow,
    Polynomial.eval_X, GFElt.val_mul, GFElt.val_pow,
    GFElt.mkB_val (getD_le hcs i)]

theorem listPoly_degree (coeffs : List Nat) :
    (∑ i ∈ Finset.range coeffs.length,
        Polynomial.C (GFElt.mkB p g hf (coeffs.getD i 0)) * Polynomial.X ^ i).degree
      < (coeffs.length : WithBot Nat) ∨ coeffs = [] := by
  rcases List.eq_nil_or_concat coeffs with h | _
  · exact Or.inr h
  all_goals
    refine Or.inl ?_
    refine lt_of_le_of_lt (Polynomial.degree_sum_le _ _) ?_
    rw [Finset.sup_lt_iff]
    · intro i hi
      exact lt_of_le_of_lt (Polynomial.degree_C_mul_X_pow_le _ _)
        (WithBot.coe_lt_coe.mpr (Finset.mem_range.mp hi))
    · exact WithBot.bot_lt_coe _

end PolyBridge

end Galois

namespace Galois

/-! ## Bridging the interpolation loops to finite sums and products -/

section InterpBridge

variable {p g : Nat} {hf : ValidField p g}

theorem foldl_range_add (h : Nat → GFElt p g hf) :
    ∀ n (acc : GFElt p g hf),
      (List.range n).foldl (fun r k => r + h k) acc
        = acc + ∑ k ∈ Finset.range n, h k := by
  intro n
  induction n with
  | zero =>
      intro acc
      rw [Finset.sum_range_zero, add_zero]
      rfl
  | succ n ih =>
      intro acc
      rw [List.range_succ, List.foldl_append, ih, Finset.sum_range_succ,
        ← add_assoc]
      rfl

theorem foldl_range_mul_skip (t : Nat → GFElt p g hf) (i : Nat) :
    ∀ n (b : GFElt p g hf),
      (List.range n).foldl (fun acc k => if i = k then acc else acc * t k) b
        = b * ∏ k ∈ (Finset.range n).erase i, t k := by
  intro n
  induction n with
  | zero =>
      intro b
      rw [show (Finset.range 0).erase i = ∅ from rfl, Finset.prod_empty, mul_one]
      rfl
  | succ n ih =>
      intro b
      rw [List.range_succ, List.foldl_append, ih, List.foldl_cons, List.foldl_nil]
      by_cases hin : i = n
      · subst hin
        rw [if_pos rfl, Finset.range_succ, Finset.erase_insert (by simp),
          Finset.erase_eq_of_not_mem (by simp)]
      · rw [if_neg hin, Finset.range_succ,
          Finset.erase_insert_of_ne (fun h => hin h.symm),
          Finset.prod_insert (by simp), mul_assoc]
        congr 1
        exact mul_comm _ _

theorem enum_eq_map (l : List (Nat × Nat)) :
    l.enum = (List.range l.length).map (fun k => (k, l.getD k (0, 0))) := by
  apply List.ext_getElem
  · rw [List.enum_length, List.length_map, List.length_range]
  · intro k h1 h2
    rw [List.getElem_enum, List.getElem_map, List.getElem_range,
      List.getD_eq_getElem l (0, 0) (by simpa using h1)]

theorem enum_mem_getD {l : List (Nat × Nat)} {e : Nat × (Nat × Nat)}
    (he : e ∈ l.enum) : e.1 < l.length ∧ e.2 = l.getD e.1 (0, 0) := by
  rw [enum_eq_map] at he
  rcases List.mem_map.mp he with ⟨k, hk, hke⟩
  have hk' : k < l.length := by
    have := List.mem_range.mp hk
    exact this
  rw [← hke]
  exact ⟨hk', rfl⟩

theorem nodup_fst_getD {l : List (Nat × Nat)} (hnd : (l.map Prod.fst).Nodup)
    {i j : Nat} (hi : i < l.length) (hj : j < l.length) (hij : i ≠ j) :
    (l.getD i (0, 0)).1 ≠ (l.getD j (0, 0)).1 := by
  intro he
  rw [List.getD_eq_getElem l (0, 0) hi, List.getD_eq_getElem l (0, 0) hj] at he
  have hmi : i < (l.map Prod.fst).length := by simpa using hi
  have hmj : j < (l.map Prod.fst).length := by simpa using hj
  have h1 : (l.map Prod.fst)[i] = (l.map Prod.fst)[j] := by
    rw [List.getElem_map, List.getElem_map]
    exact he
  exact hij (hnd.getElem_inj_iff.mp h1)

end InterpBridge

end Galois

namespace Galois

section InterpFold

variable {p g : Nat} {hf : ValidField p g}

theorem pure_ok_bind {α β : Type} (a : α) (f : α → Except GFErr β) :
    ((pure a : Except GFErr α) >>= f) = f a := rfl

theorem add_ok {a b : Nat} (ha : a ≤ 255) (hb : b ≤ 255) :
    add a b = .ok (a ^^^ b) := by
  unfold add
  rw [if_neg (by omega), if_neg (by omega)]

/-- The inner basis loop of `interpolate` on byte data with distinct
denominators: it never throws and computes the running product of the
Lagrange term values. -/
theorem inner_fold_ok (hf : ValidField p g) {x si1 : Nat} (hx : x ≤ 255)
    (hsi : si1 ≤ 255) (i : Nat) :
    ∀ L : List (Nat × (Nat × Nat)), (∀ e ∈ L, e.2.1 ≤ 255) →
      (∀ e ∈ L, e.1 ≠ i → e.2.1 ≠ si1) →
      ∀ b : GFElt p g hf,
      (L.foldlM (fun basis js =>
          if i = js.1 then pure basis
          else do
            let num ← add x js.2.1
            let den ← add si1 js.2.1
            let term ← div p g num den
            mul p g basis term) b.val : Except GFErr Nat)
      = .ok ((L.foldl (fun acc js =>
          if i = js.1 then acc
          else acc * ((GFElt.mkB p g hf x + GFElt.mkB p g hf js.2.1) *
            (GFElt.mkB p g hf si1 + GFElt.mkB p g hf js.2.1)⁻¹)) b).val) := by
  intro L
  induction L with
  | nil => intro _ _ b; rfl
  | cons e L ih =>
      intro hB hD b
      simp only [List.foldlM, List.foldl]
      by_cases hie : i = e.1
      · rw [if_pos hie, if_pos hie, pure_ok_bind]
        exact ih (fun d hd => hB d (List.mem_cons_of_mem e hd))
          (fun d hd => hD d (List.mem_cons_of_mem e hd)) b
      · rw [if_neg hie, if_neg hie]
        have he21 : e.2.1 ≤ 255 := (hB e (List.mem_cons_self e L))
        have hne : e.2.1 ≠ si1 := hD e (List.mem_cons_self e L) (fun h => hie h.symm)
        have hadd1 : add x e.2.1 = .ok (x ^^^ e.2.1) := by
          unfold add
          rw [if_neg (by omega), if_neg (by omega)]
        have hadd2 : add si1 e.2.1 = .ok (si1 ^^^ e.2.1) := by
          unfold add
          rw [if_neg (by omega), if_neg (by omega)]
        have hden0 : si1 ^^^ e.2.1 ≠ 0 := by
          intro h
          exact hne (Nat.xor_eq_zero.mp h).symm
        have hdiv := div_refines hf
          (a := x ^^^ e.2.1) (b := si1 ^^^ e.2.1)
          (Nat.lt_succ_iff.mp (xor_lt_256 (by omega) (by omega)))
          (Nat.lt_succ_iff.mp (xor_lt_256 (by omega) (by omega))) hden0
        have hmul := mul_refines hf (a := b.val)
          (b := mulByte (x ^^^ e.2.1)
            (expF p g (255 - logF p g (si1 ^^^ e.2.1))) p)
          (Nat.lt_succ_iff.mp b.lt) (Nat.lt_succ_iff.mp (mulByte_lt _ _ _))
        rw [hadd1, ok_bind, hadd2, ok_bind, hdiv, ok_bind, hmul, ok_bind]
        have hv1 : (GFElt.mkB p g hf x + GFElt.mkB p g hf e.2.1).val
            = x ^^^ e.2.1 := by
          rw [GFElt.val_add, GFElt.mkB_val hx, GFElt.mkB_val he21]
        have hv2 : (GFElt.mkB p g hf si1 + GFElt.mkB p g hf e.2.1).val
            = si1 ^^^ e.2.1 := by
          rw [GFElt.val_add, GFElt.mkB_val hsi, GFElt.mkB_val he21]
        have hv3 : ((GFElt.mkB p g hf si1 + GFElt.mkB p g hf e.2.1)⁻¹).val
            = expF p g (255 - logF p g (si1 ^^^ e.2.1)) := by
          rw [GFElt.val_inv _ (by rw [hv2]; exact hden0), hv2]
        have hval : mulByte b.val (mulByte (x ^^^ e.2.1)
              (expF p g (255 - logF p g (si1 ^^^ e.2.1))) p) p
            = ((b * ((GFElt.mkB p g hf x + GFElt.mkB p g hf e.2.1) *
                (GFElt.mkB p g hf si1 + GFElt.mkB p g hf e.2.1)⁻¹)).val) := by
          rw [GFElt.val_mul, GFElt.val_mul, hv1, hv3]
        rw [hval]
        exact ih (fun d hd => hB d (List.mem_cons_of_mem e hd))
          (fun d hd => hD d (List.mem_cons_of_mem e hd)) _

end InterpFold

end Galois

namespace Galois

section OuterFold

variable {p g : Nat} {hf : ValidField p g}

theorem inner_fold_ok_one (hf : ValidField p g) {x si1 : Nat} (hx : x ≤ 255)
    (hsi : si1 ≤ 255) (i : Nat)
    (L : List (Nat × (Nat × Nat))) (hB : ∀ e ∈ L, e.2.1 ≤ 255)
    (hD : ∀ e ∈ L, e.1 ≠ i → e.2.1 ≠ si1) :
    (L.foldlM (fun basis js =>
        if i = js.1 then pure basis
        else do
          let num ← add x js.2.1
          let den ← add si1 js.2.1
          let term ← div p g num den
          mul p g basis term) 1 : Except GFErr Nat)
    = .ok ((L.foldl (fun acc js =>
        if i = js.1 then acc
        else acc * ((GFElt.mkB p g hf x + GFElt.mkB p g hf js.2.1) *
          (GFElt.mkB p g hf si1 + GFElt.mkB p g hf js.2.1)⁻¹))
        (1 : GFElt p g hf)).val) :=
  inner_fold_ok hf hx hsi i L hB hD (1 : GFElt p g hf)

/-- The outer loop of `interpolate` on byte data with pairwise distinct
sample abscissas: it never throws and accumulates the Lagrange sum. -/
theorem outer_fold_ok (hf : ValidField p g) (samples : List (Nat × Nat))
    (hxB : ∀ s ∈ samples, s.1 ≤ 255) (hyB : ∀ s ∈ samples, s.2 ≤ 255)
    (hnd : (samples.map Prod.fst).Nodup) {x : Nat} (hx : x ≤ 255) :
    ∀ L : List (Nat × (Nat × Nat)),
      (∀ e ∈ L, e.1 < samples.length ∧ e.2 = samples.getD e.1 (0, 0)) →
      ∀ acc : GFElt p g hf,
      (L.foldlM (fun result is => do
          let basis ← samples.enum.foldlM (fun basis js =>
            if is.1 = js.1 then pure basis
            else do
              let num ← add x js.2.1
              let den ← add is.2.1 js.2.1
              let term ← div p g num den
              mul p g basis term) 1
          let t ← mul p g is.2.2 basis
          add result t) acc.val : Except GFErr Nat)
      = .ok ((L.foldl (fun r is => r +
          GFElt.mkB p g hf is.2.2 *
            (samples.enum.foldl (fun acc2 js =>
              if is.1 = js.1 then acc2
              else acc2 * ((GFElt.mkB p g hf x + GFElt.mkB p g hf js.2.1) *
                (GFElt.mkB p g hf is.2.1 + GFElt.mkB p g hf js.2.1)⁻¹))
              (1 : GFElt p g hf))) acc).val) := by
  intro L
  induction L with
  | nil => intro _ acc; rfl
  | cons e L ih =>
      intro hL acc
      have hel := hL e (List.mem_cons_self e L)
      have hmem : samples.getD e.1 (0, 0) ∈ samples := by
        rw [List.getD_eq_getElem samples (0, 0) hel.1]
        exact List.getElem_mem _
      have hsi1 : e.2.1 ≤ 255 := by
        rw [hel.2]
        exact hxB _ hmem
      have hsi2 : e.2.2 ≤ 255 := by
        rw [hel.2]
        exact hyB _ hmem
      have hB : ∀ d ∈ samples.enum, d.2.1 ≤ 255 := by
        intro d hd
        have h := enum_mem_getD hd
        rw [h.2]
        apply hxB
        rw [List.getD_eq_getElem samples (0, 0) h.1]
        exact List.getElem_mem _
      have hD : ∀ d ∈ samples.enum, d.1 ≠ e.1 → d.2.1 ≠ e.2.1 := by
        intro d hd hne
        have h := enum_mem_getD hd
        rw [h.2, hel.2]
        exact nodup_fst_getD hnd h.1 hel.1 hne
      simp only [List.foldlM, List.foldl]
      rw [inner_fold_ok_one hf hx hsi1 e.1 samples.enum hB hD, ok_bind,
        mul_refines hf hsi2 (Nat.lt_succ_iff.mp (GFElt.lt _)), ok_bind,
        add_ok (Nat.lt_succ_iff.mp acc.lt) (Nat.lt_succ_iff.mp (mulByte_lt _ _ _)),
        ok_bind]
      have hval : acc.val ^^^ mulByte e.2.2
          ((samples.enum.foldl (fun acc2 js =>
            if e.1 = js.1 then acc2
            else acc2 * ((GFElt.mkB p g hf x + GFElt.mkB p g hf js.2.1) *
              (GFElt.mkB p g hf e.2.1 + GFElt.mkB p g hf js.2.1)⁻¹))
            (1 : GFElt p g hf)).val) p
          = (acc + GFElt.mkB p g hf e.2.2 *
            (samples.enum.foldl (fun acc2 js =>
              if e.1 = js.1 then acc2
              else acc2 * ((GFElt.mkB p g hf x + GFElt.mkB p g hf js.2.1) *
                (GFElt.mkB p g hf e.2.1 + GFElt.mkB p g hf js.2.1)⁻¹))
              (1 : GFElt p g hf))).val := by
        rw [GFElt.val_add, GFElt.val_mul, GFElt.mkB_val hsi2]
      rw [hval]
      exact ih (fun d hd => hL d (List.mem_cons_of_mem e hd)) _

end OuterFold

end Galois

namespace Galois

section InterpRefine

variable {p g : Nat} {hf : ValidField p g}

theorem GFElt.sub_eq_add (a b : GFElt p g hf) : a - b = a + b :=
  GFElt.ext_val (by rw [GFElt.val_sub, GFElt.val_add])

/-- The `interpolate` method on byte samples with pairwise distinct
abscissas never throws and returns the evaluation of the Lagrange
interpolant of the samples. -/
theorem interpolate_refines (hf : ValidField p g) (samples : List (Nat × Nat))
    (hxB : ∀ s ∈ samples, s.1 ≤ 255) (hyB : ∀ s ∈ samples, s.2 ≤ 255)
    (hnd : (samples.map Prod.fst).Nodup) (hne : samples ≠ [])
    {x : Nat} (hx : x ≤ 255) :
    interpolate p g samples x =
      .ok ((Polynomial.eval (GFElt.mkB p g hf x)
        (Lagrange.interpolate (Finset.range samples.length)
          (fun k => GFElt.mkB p g hf ((samples.getD k (0, 0)).1))
          (fun k => GFElt.mkB p g hf ((samples.getD k (0, 0)).2)))).val) := by
  unfold interpolate
  rw [if_neg (by omega),
    if_neg (fun h0 => hne (List.length_eq_zero.mp h0))]
  refine Eq.trans (outer_fold_ok hf samples hxB hyB hnd hx samples.enum
    (fun e he => enum_mem_getD he) (0 : GFElt p g hf)) ?_
  congr 1
  simp only [enum_eq_map samples, List.foldl_map]
  rw [foldl_range_add]
  simp only [foldl_range_mul_skip]
  rw [zero_add, Lagrange.interpolate_apply, Polynomial.eval_finset_sum]
  congr 1
  apply Finset.sum_congr rfl
  intro k hk
  rw [Polynomial.eval_mul, Polynomial.eval_C, one_mul]
  congr 1
  unfold Lagrange.basis
  rw [Polynomial.eval_prod]
  apply Finset.prod_congr rfl
  intro j hj
  unfold Lagrange.basisDivisor
  rw [Polynomial.eval_mul, Polynomial.eval_C, Polynomial.eval_sub,
    Polynomial.eval_X, Polynomial.eval_C, GFElt.sub_eq_add, GFElt.sub_eq_add]
  dsimp only
  exact mul_comm _ _

end InterpRefine

end Galois

namespace Galois

/-- C3: round-trip of evaluation and interpolation.  For every constructed
field, byte coefficient list of length `d+1`, and `d+1` sample points with
pairwise-distinct nonzero byte abscissas whose ordinates come from
`evaluate`, `interpolate` returns the original ordinate at each sample
abscissa, and agrees with `evaluate` at every nonzero byte outside the
sample abscissas. -/
theorem C3_round_trip (p g : Nat) (hf : ValidField p g) (coeffs : List Nat)
    (hcs : ∀ c ∈ coeffs, c ≤ 255) (hclen : coeffs ≠ [])
    (samples : List (Nat × Nat)) (hlen : samples.length = coeffs.length)
    (hxB : ∀ s ∈ samples, 0 < s.1 ∧ s.1 ≤ 255)
    (hnd : (samples.map Prod.fst).Nodup)
    (hy : ∀ s ∈ samples, evaluate p g coeffs s.1 = .ok s.2) :
    (∀ s ∈ samples, interpolate p g samples s.1 = .ok s.2) ∧
    (∀ x, 0 < x → x ≤ 255 → x ∉ samples.map Prod.fst →
      interpolate p g samples x = evaluate p g coeffs x) := by
  have hxB' : ∀ s ∈ samples, s.1 ≤ 255 := fun s hs => (hxB s hs).2
  have hyval : ∀ s ∈ samples, s.2 = polySum p coeffs s.1 := by
    intro s hs
    have h1 := hy s hs
    rw [evaluate_ok hf hcs (hxB' s hs) hclen
      (by have := (hxB s hs).1; omega)] at h1
    exact (Except.ok.inj h1).symm
  have hyB : ∀ s ∈ samples, s.2 ≤ 255 := by
    intro s hs
    rw [hyval s hs]
    exact Nat.lt_succ_iff.mp (polySum_lt p coeffs s.1)
  have hne : samples ≠ [] := by
    intro h
    apply hclen
    rw [h] at hlen
    exact List.length_eq_zero.mp hlen.symm
  have hgetmem : ∀ k, k < samples.length → samples.getD k (0, 0) ∈ samples := by
    intro k hk
    rw [List.getD_eq_getElem samples (0, 0) hk]
    exact List.getElem_mem _
  set P : Polynomial (GFElt p g hf) := ∑ i ∈ Finset.range coeffs.length,
    Polynomial.C (GFElt.mkB p g hf (coeffs.getD i 0)) * Polynomial.X ^ i with hP
  have hv : Set.InjOn (fun k => GFElt.mkB p g hf ((samples.getD k (0, 0)).1))
      (Finset.range samples.length) := by
    intro a ha b hb he
    by_contra hab
    have ha' : a < samples.length := Finset.mem_range.mp (Finset.mem_coe.mp ha)
    have hb' : b < samples.length := Finset.mem_range.mp (Finset.mem_coe.mp hb)
    have h1 := congrArg GFElt.val he
    rw [GFElt.mkB_val (hxB' _ (hgetmem a ha')),
      GFElt.mkB_val (hxB' _ (hgetmem b hb'))] at h1
    exact nodup_fst_getD hnd ha' hb' hab h1
  have hdeg : P.degree < ((Finset.range samples.length).card : WithBot Nat) := by
    rw [Finset.card_range, hlen, hP]
    rcases listPoly_degree coeffs with h | h
    · exact h
    · exact absurd h hclen
  have hkey : ∀ i ∈ Finset.range samples.length,
      Polynomial.eval ((fun k => GFElt.mkB p g hf ((samples.getD k (0, 0)).1)) i) P
        = (fun k => GFElt.mkB p g hf ((samples.getD k (0, 0)).2)) i := by
    intro i hi
    have hi' : i < samples.length := Finset.mem_range.mp hi
    have hm := hgetmem i hi'
    apply GFElt.ext_val
    rw [hP, eval_listPoly coeffs hcs, GFElt.mkB_val (hxB' _ hm),
      GFElt.mkB_val (hyB _ hm)]
    exact (hyval _ hm).symm
  have heq := Lagrange.eq_interpolate_of_eval_eq
    (fun k => GFElt.mkB p g hf ((samples.getD k (0, 0)).2)) hv hdeg hkey
  constructor
  · intro s hs
    rw [interpolate_refines hf samples hxB' hyB hnd hne (hxB' s hs), ← heq]
    congr 1
    rw [hP, eval_listPoly coeffs hcs, GFElt.mkB_val (hxB' s hs)]
    exact (hyval s hs).symm
  · intro x hx0 hx hxs
    rw [interpolate_refines hf samples hxB' hyB hnd hne hx, ← heq,
      evaluate_ok hf hcs hx hclen (by omega)]
    congr 1
    rw [hP, eval_listPoly coeffs hcs, GFElt.mkB_val hx]

/-- Witness for C3 at the AES field: coefficients `[1,2,3]`, samples built
by evaluation at 1, 2, 3; interpolation recovers the sample ordinate at 2
and agrees with evaluation at the fresh point 4. -/
theorem C3_witness :
    interpolate 283 3 [(1, 0), (2, 9), (3, 8)] 2 = .ok 9 ∧
    interpolate 283 3 [(1, 0), (2, 9), (3, 8)] 4 = evaluate 283 3 [1, 2, 3] 4 := by
  have hcs : ∀ c ∈ [1, 2, 3], c ≤ 255 := by
    intro c hc
    fin_cases hc <;> norm_num
  have hxB : ∀ s ∈ [(1, 0), (2, 9), (3, 8)], 0 < s.1 ∧ s.1 ≤ 255 := by
    intro s hs
    fin_cases hs <;> exact ⟨by norm_num, by norm_num⟩
  have hy : ∀ s ∈ [(1, 0), (2, 9), (3, 8)],
      evaluate 283 3 [1, 2, 3] s.1 = .ok s.2 := by
    intro s hs
    fin_cases hs
    · rfl
    · rfl
    · rfl
  have h := C3_round_trip 283 3 validAES [1, 2, 3] hcs (by simp)
    [(1, 0), (2, 9), (3, 8)] rfl hxB (by decide) hy
  exact ⟨h.1 (2, 9) (by simp), h.2 4 (by norm_num) (by norm_num) (by decide)⟩

end Galois
